import Mathlib

/-!
Verification of the approximate-query-engine repository (Go) against its
natural-language specification.  Go code is shallowly embedded: machine
integers become `Nat`/`Int` with explicit `% 2^w` where overflow can occur,
`float64` values that hold exact decimals become `ℚ`, genuinely irrational
float computations become `ℝ`, fallible functions return `Option`, and byte
slices become `List ℕ`.
-/

/-! ## ML optimizer (`pkg/ml/optimizer.go`) -/

namespace MLOpt

/-- Embedding of `ml.OptimizationStrategy`. -/
inductive Strategy
  | exact
  | sample
  | sketch
  | stratified
deriving DecidableEq, Repr

/-- Embedding of `ml.QueryFeatures` (the fields read by `chooseStrategy` and
`applySampleTransformation`); `TableSize` is an `int64`, `ErrorTolerance` a
`float64` holding an exact decimal, hence `ℚ`. -/
structure QueryFeatures where
  tableSize : ℤ
  hasCount : Bool
  hasSum : Bool
  hasAvg : Bool
  hasDistinct : Bool
  hasGroupBy : Bool
  errorTolerance : ℚ
  tableName : String
deriving DecidableEq, Repr

/-- Embedding of `MLOptimizer.chooseStrategy` (optimizer.go:128-153). -/
def chooseStrategy (f : QueryFeatures) : Strategy × ℚ :=
  if f.tableSize < 100 then
    (Strategy.exact, 0.95)
  else if f.hasDistinct ∧ f.hasCount ∧ f.errorTolerance > 0.01 then
    (Strategy.sketch, 0.90)
  else if f.tableSize > 1000 ∧ (f.hasCount ∨ f.hasSum ∨ f.hasAvg) ∧ f.errorTolerance > 0.05 then
    (Strategy.sample, 0.80)
  else if f.hasGroupBy ∧ f.errorTolerance > 0.03 then
    if f.tableSize > 10000 then (Strategy.sample, 0.80) else (Strategy.sketch, 0.75)
  else if f.tableSize > 500 ∧ (f.hasCount ∨ f.hasSum) ∧ f.errorTolerance > 0.02 then
    (Strategy.sample, 0.70)
  else
    (Strategy.exact, 0.60)

/-- The spec's static strategy table, written from the spec's words: each row
(condition, strategy, confidence) tried in the spec's order. -/
def specStrategyTable (f : QueryFeatures) : Strategy × ℚ :=
  if f.tableSize < 100 then (Strategy.exact, 0.95)
  else if f.hasDistinct = true ∧ f.hasCount = true ∧ 0.01 < f.errorTolerance then
    (Strategy.sketch, 0.90)
  else if 1000 < f.tableSize ∧ (f.hasCount = true ∨ f.hasSum = true ∨ f.hasAvg = true)
      ∧ 0.05 < f.errorTolerance then (Strategy.sample, 0.80)
  else if f.hasGroupBy = true ∧ 0.03 < f.errorTolerance ∧ 10000 < f.tableSize then
    (Strategy.sample, 0.80)
  else if f.hasGroupBy = true ∧ 0.03 < f.errorTolerance then (Strategy.sketch, 0.75)
  else if 500 < f.tableSize ∧ (f.hasCount = true ∨ f.hasSum = true)
      ∧ 0.02 < f.errorTolerance then (Strategy.sample, 0.70)
  else (Strategy.exact, 0.60)

/-- The fraction chosen by `applySampleTransformation` (optimizer.go:216-228). -/
def sampleFractionOf (f : QueryFeatures) : ℚ :=
  let base : ℚ :=
    if f.tableSize > 100000 then 0.01
    else if f.tableSize > 50000 then 0.02
    else 0.05
  if f.errorTolerance > 0.1 then base * 0.5 else base

/-- The LIMIT row count chosen by `applySampleTransformation`
(optimizer.go:230-233): `int64(float64(TableSize) * fraction)`, raised to 100
when below 100. -/
def sampleLimitOf (f : QueryFeatures) : ℤ :=
  if ⌊(f.tableSize : ℚ) * sampleFractionOf f⌋ < 100 then 100
  else ⌊(f.tableSize : ℚ) * sampleFractionOf f⌋

/-- Embedding of `MLOptimizer.applySampleTransformation`
(optimizer.go:216-241): rewrites `FROM <table>` into a `LIMIT` subquery and
returns the sample fraction. -/
def applySampleTransformation (sql : String) (f : QueryFeatures) : String × ℚ :=
  ( sql.replace ("FROM " ++ f.tableName)
      ("FROM (SELECT * FROM " ++ f.tableName ++ " ORDER BY RANDOM() LIMIT " ++
        toString (sampleLimitOf f) ++ ") AS sample_data"),
    sampleFractionOf f )

/-- The spec's sample-fraction schedule, written from the claim's words:
0.01 above 100000 rows, 0.02 above 50000, else 0.05, halved when the error
tolerance exceeds 0.1. -/
def specSampleFraction (f : QueryFeatures) : ℚ :=
  (if 100000 < f.tableSize then 0.01 else if 50000 < f.tableSize then 0.02 else 0.05) *
    (if 0.1 < f.errorTolerance then 1/2 else 1)

end MLOpt

/-- Claim C5: the static strategy rules of `chooseStrategy` are exactly the
spec's table, applied in the spec's order with the spec's thresholds and
confidences. -/
theorem C5_static_strategy_rules (f : MLOpt.QueryFeatures) :
    MLOpt.chooseStrategy f = MLOpt.specStrategyTable f := by
  unfold MLOpt.chooseStrategy MLOpt.specStrategyTable
  split_ifs <;> simp_all

/-- Claim C8: the sample transformation picks fraction 0.01 / 0.02 / 0.05 by
the table-size thresholds, halves it when tolerance exceeds 0.1, and the
rewritten SQL's LIMIT row count is `size * fraction` floored at 100 rows. -/
theorem C8_sample_fraction_schedule (sql : String) (f : MLOpt.QueryFeatures)
    (hsz : 0 ≤ f.tableSize) :
    (MLOpt.applySampleTransformation sql f).2 = MLOpt.specSampleFraction f ∧
    MLOpt.sampleLimitOf f = max ⌊(f.tableSize : ℚ) * MLOpt.specSampleFraction f⌋ 100 ∧
    (MLOpt.applySampleTransformation sql f).1 =
      sql.replace ("FROM " ++ f.tableName)
        ("FROM (SELECT * FROM " ++ f.tableName ++ " ORDER BY RANDOM() LIMIT " ++
          toString (max ⌊(f.tableSize : ℚ) * MLOpt.specSampleFraction f⌋ 100) ++
          ") AS sample_data") := by
  have hfr : MLOpt.sampleFractionOf f = MLOpt.specSampleFraction f := by
    unfold MLOpt.sampleFractionOf MLOpt.specSampleFraction
    split_ifs <;> norm_num
  have hlim : MLOpt.sampleLimitOf f = max ⌊(f.tableSize : ℚ) * MLOpt.specSampleFraction f⌋ 100 := by
    unfold MLOpt.sampleLimitOf
    rw [hfr]
    omega
  refine ⟨?_, hlim, ?_⟩
  · simpa [MLOpt.applySampleTransformation] using hfr
  · simp only [MLOpt.applySampleTransformation]
    rw [hlim]

/-- Witness for C8 at a concrete feature vector: 60000 rows with tolerance
0.2 gives fraction 0.01 and LIMIT 600. -/
theorem C8_sample_fraction_schedule_witness :
    (MLOpt.applySampleTransformation "SELECT SUM(x) FROM t"
        ⟨60000, true, true, false, false, false, 0.2, "t"⟩).2 =
      MLOpt.specSampleFraction ⟨60000, true, true, false, false, false, 0.2, "t"⟩ ∧
    MLOpt.sampleLimitOf ⟨60000, true, true, false, false, false, 0.2, "t"⟩ =
      max ⌊((60000 : ℤ) : ℚ) * MLOpt.specSampleFraction
        ⟨60000, true, true, false, false, false, 0.2, "t"⟩⌋ 100 ∧
    (MLOpt.applySampleTransformation "SELECT SUM(x) FROM t"
        ⟨60000, true, true, false, false, false, 0.2, "t"⟩).1 =
      "SELECT SUM(x) FROM t".replace ("FROM " ++ "t")
        ("FROM (SELECT * FROM " ++ "t" ++ " ORDER BY RANDOM() LIMIT " ++
          toString (max ⌊((60000 : ℤ) : ℚ) * MLOpt.specSampleFraction
            ⟨60000, true, true, false, false, false, 0.2, "t"⟩⌋ 100) ++
          ") AS sample_data") :=
  C8_sample_fraction_schedule "SELECT SUM(x) FROM t"
    ⟨60000, true, true, false, false, false, 0.2, "t"⟩ (by decide)

/-! ## Sketches (`pkg/sketches/countmin.go`): Count-Min sketch -/

namespace Sketches

/-- One step of the FNV-1a 32-bit hash: xor the byte in, multiply by the FNV
prime, over `uint32`. -/
def fnv32Step (h b : ℕ) : ℕ := ((h ^^^ b) * 16777619) % 2 ^ 32

/-- FNV-1a 32-bit hash of a byte sequence (`hash/fnv`, `fnv.New32a`). -/
def fnv32a (data : List ℕ) : ℕ := data.foldl fnv32Step 2166136261

/-- `binary.LittleEndian.PutUint32`: the four little-endian bytes of `n`. -/
def putUint32LE (n : ℕ) : List ℕ :=
  [n % 256, n / 2 ^ 8 % 256, n / 2 ^ 16 % 256, n / 2 ^ 24 % 256]

/-- `CountMinSketch.hash` row `i` (countmin.go:214-232): FNV-1a over the key
followed by the 4-byte little-endian salt `i`. -/
def hashRow (i : ℕ) (key : List ℕ) : ℕ := fnv32a (key ++ putUint32LE i)

/-- Embedding of `sketches.CountMinSketch`.  `epsilon` and `delta` are
`float64` fields used only through their IEEE-754 bit patterns here, so they
are carried as the 64-bit words `epsilonBits`/`deltaBits`. -/
structure CMS where
  d : ℕ
  w : ℕ
  epsilonBits : ℕ
  deltaBits : ℕ
  count : ℕ
  table : List (List ℕ)
deriving DecidableEq, Repr

/-- A freshly created sketch: `d × w` table of zero counters, zero count. -/
def cmEmpty (d w epsB deltaB : ℕ) : CMS :=
  ⟨d, w, epsB, deltaB, 0, List.replicate d (List.replicate w 0)⟩

/-- Embedding of `CountMinSketch.Add` (countmin.go:52-61): for each row `i`,
bump counter `hash_i(key) % w` by `delta` (uint64 arithmetic), and bump the
total count. -/
def cmAdd (key : List ℕ) (delta : ℕ) (s : CMS) : CMS :=
  { s with
    table := (List.range s.d).map (fun i =>
      let j := hashRow i key % s.w
      let row := s.table.getD i []
      row.set j ((row.getD j 0 + delta) % 2 ^ 64)),
    count := (s.count + delta) % 2 ^ 64 }

/-- Embedding of `CountMinSketch.Query` (countmin.go:69-82): minimum of the
key's counters across rows, starting from `^uint64(0)`. -/
def cmQuery (key : List ℕ) (s : CMS) : ℕ :=
  ((List.range s.d).map
      (fun i => (s.table.getD i []).getD (hashRow i key % s.w) 0)).foldl
    min (2 ^ 64 - 1)

/-- A sequence of `Add` calls, in order. -/
def cmAddSeq : List (List ℕ × ℕ) → CMS → CMS
  | [], s => s
  | op :: ops, s => cmAddSeq ops (cmAdd op.1 op.2 s)

/-- Counter cell `(i, j)` of a sketch. -/
def cellVal (s : CMS) (i j : ℕ) : ℕ := (s.table.getD i []).getD j 0

/-- The true total added for key `k` by an operation sequence. -/
def trueCount (k : List ℕ) : List (List ℕ × ℕ) → ℕ
  | [] => 0
  | op :: ops => (if op.1 = k then op.2 else 0) + trueCount k ops

/-- The total of all deltas in an operation sequence. -/
def totalDelta : List (List ℕ × ℕ) → ℕ
  | [] => 0
  | op :: ops => op.2 + totalDelta ops

/-- The mathematical total that lands in cell `(i, j)` of a width-`w` sketch. -/
def cellSum (w i j : ℕ) : List (List ℕ × ℕ) → ℕ
  | [] => 0
  | op :: ops => (if hashRow i op.1 % w = j then op.2 else 0) + cellSum w i j ops

/-- Well-formedness of a `d × w` sketch state: declared dimensions match the
table and every counter fits in a `uint64`. -/
def Shape (d w : ℕ) (s : CMS) : Prop :=
  s.d = d ∧ s.w = w ∧ s.table.length = d ∧
    (∀ r ∈ s.table, r.length = w) ∧ (∀ r ∈ s.table, ∀ c ∈ r, c < 2 ^ 64)

theorem shape_cmEmpty (d w epsB deltaB : ℕ) : Shape d w (cmEmpty d w epsB deltaB) := by
  refine ⟨rfl, rfl, by simp [cmEmpty], ?_, ?_⟩ <;> intro r hr
  · rw [List.eq_of_mem_replicate hr]; simp
  · intro c hc
    rw [List.eq_of_mem_replicate hr] at hc
    rw [List.eq_of_mem_replicate hc]
    positivity

theorem shape_cmAdd {d w : ℕ} {s : CMS} (hS : Shape d w s) (key : List ℕ) (delta : ℕ) :
    Shape d w (cmAdd key delta s) := by
  obtain ⟨hd, hw, hlen, hrows, hcells⟩ := hS
  refine ⟨hd, hw, by simp [cmAdd, hd], ?_, ?_⟩ <;> intro r hr
  · simp only [cmAdd, List.mem_map, List.mem_range] at hr
    obtain ⟨i, hi, rfl⟩ := hr
    simp only [List.length_set]
    apply hrows
    rw [List.getD_eq_getElem _ _ (by omega : i < s.table.length)]
    exact List.getElem_mem _
  · intro c hc
    simp only [cmAdd, List.mem_map, List.mem_range] at hr
    obtain ⟨i, hi, rfl⟩ := hr
    rcases List.mem_or_eq_of_mem_set hc with hmem | rfl
    · have hrowmem : s.table.getD i [] ∈ s.table := by
        rw [List.getD_eq_getElem _ _ (by omega : i < s.table.length)]
        exact List.getElem_mem _
      exact hcells _ hrowmem _ hmem
    · exact Nat.mod_lt _ (by positivity)

theorem cellVal_lt {d w : ℕ} {s : CMS} (hS : Shape d w s) {i j : ℕ}
    (hi : i < d) (hj : j < w) : cellVal s i j < 2 ^ 64 := by
  obtain ⟨hd, hw, hlen, hrows, hcells⟩ := hS
  have hrowmem : s.table.getD i [] ∈ s.table := by
    rw [List.getD_eq_getElem _ _ (by omega : i < s.table.length)]
    exact List.getElem_mem _
  have hrl : (s.table.getD i []).length = w := hrows _ hrowmem
  have : (s.table.getD i []).getD j 0 ∈ s.table.getD i [] := by
    rw [List.getD_eq_getElem _ _ (by omega : j < (s.table.getD i []).length)]
    exact List.getElem_mem _
  exact hcells _ hrowmem _ this

theorem cellVal_cmAdd {d w : ℕ} {s : CMS} (hS : Shape d w s) (key : List ℕ)
    (delta : ℕ) {i j : ℕ} (hi : i < d) (hj : j < w) :
    cellVal (cmAdd key delta s) i j =
      if hashRow i key % w = j then (cellVal s i j + delta) % 2 ^ 64
      else cellVal s i j := by
  obtain ⟨hd, hw, hlen, hrows, hcells⟩ := hS
  have hrowmem : s.table.getD i [] ∈ s.table := by
    rw [List.getD_eq_getElem _ _ (by omega : i < s.table.length)]
    exact List.getElem_mem _
  have hrl : (s.table.getD i []).length = w := hrows _ hrowmem
  unfold cellVal cmAdd
  simp only
  rw [List.getD_eq_getElem _ _ (by simp [hd]; omega :
    i < ((List.range s.d).map (fun i =>
      let j := hashRow i key % s.w
      let row := s.table.getD i []
      row.set j ((row.getD j 0 + delta) % 2 ^ 64))).length)]
  rw [List.getElem_map, List.getElem_range]
  simp only [hw]
  by_cases hcase : hashRow i key % w = j
  · rw [if_pos hcase, hcase]
    rw [List.getD_eq_getElem _ _ (by rw [List.length_set, hrl]; omega)]
    exact List.getElem_set_self _
  · rw [if_neg hcase]
    rw [List.getD_eq_getElem _ _ (by rw [List.length_set, hrl]; omega)]
    rw [List.getElem_set_ne hcase]
    rw [List.getD_eq_getElem _ _ (by omega : j < (s.table.getD i []).length)]

theorem cellVal_cmAddSeq {d w : ℕ} (ops : List (List ℕ × ℕ)) {s : CMS}
    (hS : Shape d w s) {i j : ℕ} (hi : i < d) (hj : j < w) :
    cellVal (cmAddSeq ops s) i j = (cellVal s i j + cellSum w i j ops) % 2 ^ 64 := by
  induction ops generalizing s with
  | nil =>
    simp only [cmAddSeq, cellSum, Nat.add_zero]
    exact (Nat.mod_eq_of_lt (cellVal_lt hS hi hj)).symm
  | cons op ops ih =>
    simp only [cmAddSeq, cellSum]
    rw [ih (shape_cmAdd hS op.1 op.2)]
    rw [cellVal_cmAdd hS op.1 op.2 hi hj]
    by_cases hcase : hashRow i op.1 % w = j
    · rw [if_pos hcase, if_pos hcase, Nat.mod_add_mod, Nat.add_assoc]
    · rw [if_neg hcase, if_neg hcase, Nat.zero_add]

theorem shape_cmAddSeq {d w : ℕ} (ops : List (List ℕ × ℕ)) {s : CMS}
    (hS : Shape d w s) : Shape d w (cmAddSeq ops s) := by
  induction ops generalizing s with
  | nil => exact hS
  | cons op ops ih => exact ih (shape_cmAdd hS op.1 op.2)

theorem trueCount_le_cellSum (k : List ℕ) (ops : List (List ℕ × ℕ)) (w i : ℕ) :
    trueCount k ops ≤ cellSum w i (hashRow i k % w) ops := by
  induction ops with
  | nil => exact Nat.le_refl 0
  | cons op ops ih =>
    simp only [trueCount, cellSum]
    by_cases hk : op.1 = k
    · rw [if_pos hk, if_pos (by rw [hk])]
      exact Nat.add_le_add_left ih _
    · rw [if_neg hk]
      exact Nat.add_le_add (Nat.zero_le _) ih

theorem cellSum_le_totalDelta (w i j : ℕ) (ops : List (List ℕ × ℕ)) :
    cellSum w i j ops ≤ totalDelta ops := by
  induction ops with
  | nil => exact Nat.le_refl 0
  | cons op ops ih =>
    simp only [cellSum, totalDelta]
    exact Nat.add_le_add (by split <;> omega) ih

theorem trueCount_le_totalDelta (k : List ℕ) (ops : List (List ℕ × ℕ)) :
    trueCount k ops ≤ totalDelta ops := by
  induction ops with
  | nil => exact Nat.le_refl 0
  | cons op ops ih =>
    simp only [trueCount, totalDelta]
    exact Nat.add_le_add (by split <;> omega) ih

theorem foldl_min_ge (l : List ℕ) (a c : ℕ) (ha : c ≤ a) (hl : ∀ x ∈ l, c ≤ x) :
    c ≤ l.foldl min a := by
  induction l generalizing a with
  | nil => exact ha
  | cons x l ih =>
    simp only [List.foldl_cons]
    exact ih _ (le_min ha (hl x (by simp))) (fun y hy => hl y (by simp [hy]))

theorem cellVal_cmEmpty (d w epsB deltaB i j : ℕ) :
    cellVal (cmEmpty d w epsB deltaB) i j = 0 := by
  unfold cellVal cmEmpty
  simp only
  rcases Nat.lt_or_ge i d with hi | hi
  · have h1 : (List.replicate d (List.replicate w 0)).getD i [] = List.replicate w 0 := by
      rw [List.getD_eq_getElem _ _ (by simpa using hi)]
      exact List.getElem_replicate _ _
    rw [h1]
    rcases Nat.lt_or_ge j w with hj | hj
    · rw [List.getD_eq_getElem _ _ (by simpa using hj)]
      exact List.getElem_replicate _ _
    · exact List.getD_eq_default _ _ (by simpa using hj)
  · have h1 : (List.replicate d (List.replicate w 0)).getD i [] = [] :=
      List.getD_eq_default _ _ (by simpa using hi)
    rw [h1]
    rfl

end Sketches

/-- Claim C1 (amended): provided the total of all added deltas stays below
`2^64` (no `uint64` counter overflow), a Count-Min sketch built by any
sequence of `Add(key, delta)` operations never underestimates: `Query(key)`
is at least the sum of the deltas added for that exact key. -/
theorem C1_countmin_no_underestimate (d w epsB deltaB : ℕ)
    (ops : List (List ℕ × ℕ)) (k : List ℕ) (hw : 0 < w)
    (hover : Sketches.totalDelta ops < 2 ^ 64) :
    Sketches.trueCount k ops ≤
      Sketches.cmQuery k (Sketches.cmAddSeq ops (Sketches.cmEmpty d w epsB deltaB)) := by
  have hS : Sketches.Shape d w (Sketches.cmAddSeq ops (Sketches.cmEmpty d w epsB deltaB)) :=
    Sketches.shape_cmAddSeq ops (Sketches.shape_cmEmpty d w epsB deltaB)
  have htc : Sketches.trueCount k ops ≤ Sketches.totalDelta ops :=
    Sketches.trueCount_le_totalDelta k ops
  unfold Sketches.cmQuery
  rw [hS.1, hS.2.1]
  apply Sketches.foldl_min_ge
  · omega
  · intro x hx
    simp only [List.mem_map, List.mem_range] at hx
    obtain ⟨i, hi, rfl⟩ := hx
    have hj : Sketches.hashRow i k % w < w := Nat.mod_lt _ hw
    have := Sketches.cellVal_cmAddSeq ops (Sketches.shape_cmEmpty d w epsB deltaB)
      hi hj
    rw [Sketches.cellVal_cmEmpty, Nat.zero_add] at this
    have hcs : Sketches.cellSum w i (Sketches.hashRow i k % w) ops < 2 ^ 64 :=
      Nat.lt_of_le_of_lt (Sketches.cellSum_le_totalDelta w i _ ops) hover
    rw [Nat.mod_eq_of_lt hcs] at this
    calc Sketches.trueCount k ops
        ≤ Sketches.cellSum w i (Sketches.hashRow i k % w) ops :=
          Sketches.trueCount_le_cellSum k ops w i
      _ = Sketches.cellVal (Sketches.cmAddSeq ops (Sketches.cmEmpty d w epsB deltaB)) i
            (Sketches.hashRow i k % w) := this.symm

/-- Counterexample to claim C1 as stated: `uint64` counters wrap.  After two
`Add(k, 2^63)` calls the key's counters hold `2^64 % 2^64 = 0`, so
`Query(k) = 0` while the sum of the deltas added for `k` is `2^64`. -/
theorem C1_countmin_overflow_counterexample :
    ¬ (Sketches.trueCount [0] [ ([0], 2 ^ 63), ([0], 2 ^ 63) ] ≤
        Sketches.cmQuery [0]
          (Sketches.cmAddSeq [ ([0], 2 ^ 63), ([0], 2 ^ 63) ]
            (Sketches.cmEmpty 2 3 0 0))) := by decide

/-- Witness for C1 at a concrete sketch: one `Add([1], 5)` into a `1 × 1`
sketch, queried back. -/
theorem C1_countmin_no_underestimate_witness :
    0 < 1 ∧ Sketches.totalDelta [ ([1], 5) ] < 2 ^ 64 ∧
      Sketches.trueCount [1] [ ([1], 5) ] ≤
        Sketches.cmQuery [1]
          (Sketches.cmAddSeq [ ([1], 5) ] (Sketches.cmEmpty 1 1 0 0)) :=
  ⟨by decide, by decide,
    C1_countmin_no_underestimate 1 1 0 0 [ ([1], 5) ] [1] (by decide) (by decide)⟩

/-! ## Sketches: HyperLogLog -/

namespace Sketches

/-- One step of the FNV-1a 64-bit hash, over `uint64`. -/
def fnv64Step (h b : ℕ) : ℕ := ((h ^^^ b) * 1099511628211) % 2 ^ 64

/-- FNV-1a 64-bit hash of a byte sequence (`hash64`, countmin.go:408-412). -/
def fnv64a (data : List ℕ) : ℕ := data.foldl fnv64Step 14695981039346656037

/-- Embedding of `sketches.HyperLogLog`.  Registers are `uint8` counters;
`alpha` is an exact decimal computation, hence `ℚ`. -/
structure HLL where
  registers : List ℕ
  b : ℕ
  m : ℕ
  alpha : ℚ
deriving DecidableEq, Repr

/-- The bias-correction constant chosen in `NewHyperLogLog`
(countmin.go:258-271). -/
def alphaOf (m : ℕ) : ℚ :=
  if m ≥ 128 then 0.7213 / (1 + 1.079 / (m : ℚ))
  else if m ≥ 64 then 0.709
  else if m ≥ 32 then 0.697
  else if m ≥ 16 then 0.673
  else 0.5

/-- Embedding of `NewHyperLogLog` (countmin.go:251-279): clamps `b` outside
`[4, 16]` to 10, sets `m = 2^b`, zeroes the registers. -/
def newHyperLogLog (b : ℕ) : HLL :=
  let bc := if b < 4 ∨ b > 16 then 10 else b
  ⟨List.replicate (2 ^ bc) 0, bc, 2 ^ bc, alphaOf (2 ^ bc)⟩

/-- The register-update loop of `HyperLogLog.Add` (countmin.go:292-299):
starting from 1, while `w > 0` and the counter is at most `64 − b`, stop at
the first set low bit, else shift right and increment.  The fuel 65 exceeds
the at most `64 − b + 1` iterations the loop can make. -/
def rankLoop : ℕ → ℕ → ℕ → ℕ → ℕ
  | 0, _, _, lz => lz
  | fuel + 1, limit, w, lz =>
    if 0 < w ∧ lz ≤ limit then
      if w % 2 = 1 then lz else rankLoop fuel limit (w / 2) (lz + 1)
    else lz

/-- Embedding of `HyperLogLog.Add` (countmin.go:282-305): register `j` is the
low `b` hash bits, and the loop's rank is stored when it exceeds the current
register value. -/
def hllAdd (value : List ℕ) (h : HLL) : HLL :=
  let hsh := fnv64a value
  let j := hsh % 2 ^ h.b
  let w := hsh / 2 ^ h.b
  let lz := rankLoop 65 (64 - h.b) w 1
  if lz > h.registers.getD j 0 then { h with registers := h.registers.set j lz }
  else h

/-- Binary length of `n` (position of its highest set bit), fuel-driven;
fuel 64 covers every value below `2^64`. -/
def bitLen : ℕ → ℕ → ℕ
  | 0, _ => 0
  | fuel + 1, n => if n = 0 then 0 else bitLen fuel (n / 2) + 1

/-- The rank the spec describes for `HyperLogLog.Add`: the count of leading
zeros of the remaining `64 − b` hash bits, plus one. -/
def specLeadingRank (b : ℕ) (value : List ℕ) : ℕ :=
  let w := fnv64a value / 2 ^ b
  (64 - b) - bitLen 64 w + 1

end Sketches

/-- Claim C3 (code evaluated at the failing input): the spec and the code's
own comment call for the leading-zero rank of the remaining hash bits, but
the loop tests `w & 1`, counting trailing zeros.  For the single byte 97 on
a `b = 4` sketch the code stores rank 4 into the selected register while the
leading-zero rank is 1. -/
theorem C3_hll_rank_code_divergence :
    (Sketches.hllAdd [97] (Sketches.newHyperLogLog 4)).registers.getD
        (Sketches.fnv64a [97] % 2 ^ 4) 0 = 4 ∧
      Sketches.specLeadingRank 4 [97] = 1 ∧ (4 : ℕ) ≠ 1 := by decide

/-! ## Sketch merges -/

namespace Sketches

/-- Embedding of `HyperLogLog.Merge` (countmin.go:364-376): error when `m` or
`b` differ, else element-wise register maximum. -/
def hllMerge (a other : HLL) : Option HLL :=
  if a.m ≠ other.m ∨ a.b ≠ other.b then none
  else some { a with registers := List.zipWith max a.registers other.registers }

/-- Embedding of `CountMinSketch.Merge` (countmin.go:127-140): error when `d`
or `w` differ, else cell-wise `uint64` addition of counters and counts. -/
def cmMerge (a other : CMS) : Option CMS :=
  if a.d ≠ other.d ∨ a.w ≠ other.w then none
  else some { a with
    table := List.zipWith (fun r1 r2 => List.zipWith (fun u v => (u + v) % 2 ^ 64) r1 r2)
      a.table other.table,
    count := (a.count + other.count) % 2 ^ 64 }

/-- Well-formedness of a HyperLogLog as produced by `NewHyperLogLog` (and
preserved by `Add`/`Merge`/deserialization): `m = 2^b`, `m` registers, and
the bias constant matching `m`. -/
def HWF (h : HLL) : Prop :=
  h.m = 2 ^ h.b ∧ h.registers.length = h.m ∧ h.alpha = alphaOf h.m

instance (h : HLL) : Decidable (HWF h) := by unfold HWF; infer_instance

instance (d w : ℕ) (s : CMS) : Decidable (Shape d w s) := by unfold Shape; infer_instance

theorem zipWith_max_self (l : List ℕ) : List.zipWith max l l = l := by
  induction l with
  | nil => rfl
  | cons a t ih => simp [ih]

theorem zipWith_max_assoc (l1 l2 l3 : List ℕ) :
    List.zipWith max (List.zipWith max l1 l2) l3 =
      List.zipWith max l1 (List.zipWith max l2 l3) := by
  induction l1 generalizing l2 l3 with
  | nil => simp
  | cons a t ih =>
    cases l2 with
    | nil => simp
    | cons b t2 =>
      cases l3 with
      | nil => simp
      | cons c t3 => simp [ih, Nat.max_assoc]

theorem hllMerge_eq_some {a c : HLL} (hm : a.m = c.m) (hb : a.b = c.b) :
    hllMerge a c = some { a with registers := List.zipWith max a.registers c.registers } := by
  unfold hllMerge
  rw [if_neg (by simp [hm, hb])]

theorem hllMerge_eq_none {a c : HLL} (h : a.m ≠ c.m ∨ a.b ≠ c.b) :
    hllMerge a c = none := by
  unfold hllMerge
  rw [if_pos h]

theorem cellVal_zip (x y : CMS) (d w : ℕ) (hX : Shape d w x) (hY : Shape d w y)
    (i j : ℕ) (hi : i < d) (hj : j < w) :
    ((List.zipWith (fun r1 r2 => List.zipWith (fun u v => (u + v) % 2 ^ 64) r1 r2)
        x.table y.table).getD i []).getD j 0 =
      (cellVal x i j + cellVal y i j) % 2 ^ 64 := by
  obtain ⟨hxd, hxw, hxlen, hxrows, _⟩ := hX
  obtain ⟨hyd, hyw, hylen, hyrows, _⟩ := hY
  have hxi : i < x.table.length := by omega
  have hyi : i < y.table.length := by omega
  have h1 : i < (List.zipWith
      (fun r1 r2 => List.zipWith (fun u v => (u + v) % 2 ^ 64) r1 r2)
      x.table y.table).length := by
    rw [List.length_zipWith]
    omega
  rw [List.getD_eq_getElem _ _ h1, List.getElem_zipWith]
  have hxr : (x.table[i]).length = w := hxrows _ (List.getElem_mem _)
  have hyr : (y.table[i]).length = w := hyrows _ (List.getElem_mem _)
  have h2 : j < (List.zipWith (fun u v => (u + v) % 2 ^ 64)
      (x.table[i]) (y.table[i])).length := by
    rw [List.length_zipWith]
    omega
  rw [List.getD_eq_getElem _ _ h2, List.getElem_zipWith]
  unfold cellVal
  rw [List.getD_eq_getElem x.table _ hxi, List.getD_eq_getElem y.table _ hyi]
  rw [List.getD_eq_getElem _ _ (by omega : j < (x.table[i]).length),
    List.getD_eq_getElem _ _ (by omega : j < (y.table[i]).length)]

end Sketches

/-- Claim C6: HLL merge is commutative and associative on well-formed
sketches, idempotent (`merge(A, A)` leaves `A`'s registers unchanged), and
errors exactly when `b` differs; CM merge is cell-wise `uint64` addition of
counters and total counts and errors exactly when `d` or `w` differ. -/
theorem C6_sketch_merge_laws :
    (∀ a c : Sketches.HLL, Sketches.HWF a → Sketches.HWF c →
        Sketches.hllMerge a c = Sketches.hllMerge c a) ∧
    (∀ a c e : Sketches.HLL, Sketches.HWF a → Sketches.HWF c → Sketches.HWF e →
        (Sketches.hllMerge a c).bind (fun x => Sketches.hllMerge x e) =
          (Sketches.hllMerge c e).bind (fun x => Sketches.hllMerge a x)) ∧
    (∀ a : Sketches.HLL, Sketches.hllMerge a a = some a) ∧
    (∀ a c : Sketches.HLL, Sketches.HWF a → Sketches.HWF c →
        (Sketches.hllMerge a c = none ↔ a.b ≠ c.b)) ∧
    (∀ x y : Sketches.CMS, Sketches.cmMerge x y = none ↔ (x.d ≠ y.d ∨ x.w ≠ y.w)) ∧
    (∀ d w : ℕ, ∀ x y : Sketches.CMS, Sketches.Shape d w x → Sketches.Shape d w y →
        ∃ z, Sketches.cmMerge x y = some z ∧
          z.count = (x.count + y.count) % 2 ^ 64 ∧
          ∀ i j : ℕ, i < d → j < w →
            Sketches.cellVal z i j =
              (Sketches.cellVal x i j + Sketches.cellVal y i j) % 2 ^ 64) := by
  refine ⟨?_, ?_, ?_, ?_, ?_, ?_⟩
  · intro a c ⟨ham, _, haa⟩ ⟨hcm, _, hca⟩
    by_cases hb : a.b = c.b
    · have hm : a.m = c.m := by rw [ham, hcm, hb]
      rw [Sketches.hllMerge_eq_some hm hb, Sketches.hllMerge_eq_some hm.symm hb.symm]
      cases a with
      | mk ra ba ma aa =>
        cases c with
        | mk rc bc mc ac =>
          simp only at hm hb haa hca ⊢
          subst hm hb
          simp [List.zipWith_comm_of_comm max Nat.max_comm, haa, hca]
    · rw [Sketches.hllMerge_eq_none (Or.inr hb),
        Sketches.hllMerge_eq_none (Or.inr (fun h => hb h.symm))]
  · intro a c e ⟨ham, _, _⟩ ⟨hcm, _, _⟩ ⟨hem, _, _⟩
    by_cases h1 : a.b = c.b
    · have hm1 : a.m = c.m := by rw [ham, hcm, h1]
      by_cases h2 : c.b = e.b
      · have hm2 : c.m = e.m := by rw [hcm, hem, h2]
        rw [Sketches.hllMerge_eq_some hm1 h1, Sketches.hllMerge_eq_some hm2 h2]
        simp only [Option.some_bind]
        rw [Sketches.hllMerge_eq_some (by simp [hm1, hm2]) (by simp [h1, h2]),
          Sketches.hllMerge_eq_some (by simp [hm1, hm2]) (by simp [h1, h2])]
        simp [Sketches.zipWith_max_assoc]
      · have hm2 : c.m ≠ e.m := by
          rw [hcm, hem]
          exact fun h => h2 (Nat.pow_right_injective (by norm_num) h)
        rw [Sketches.hllMerge_eq_some hm1 h1, Sketches.hllMerge_eq_none (Or.inl hm2)]
        simp only [Option.some_bind, Option.none_bind]
        exact Sketches.hllMerge_eq_none (Or.inr (by simpa [h1] using h2))
    · rw [Sketches.hllMerge_eq_none (Or.inr h1)]
      simp only [Option.none_bind]
      by_cases h2 : c.b = e.b
      · have hm2 : c.m = e.m := by rw [hcm, hem, h2]
        rw [Sketches.hllMerge_eq_some hm2 h2]
        simp only [Option.some_bind]
        exact (Sketches.hllMerge_eq_none (Or.inr (by simpa using h1))).symm
      · rw [Sketches.hllMerge_eq_none (Or.inr h2)]
        rfl
  · intro a
    rw [Sketches.hllMerge_eq_some rfl rfl, Sketches.zipWith_max_self]
  · intro a c ⟨ham, _, _⟩ ⟨hcm, _, _⟩
    constructor
    · intro h hb
      have hm : a.m = c.m := by rw [ham, hcm, hb]
      rw [Sketches.hllMerge_eq_some hm hb] at h
      exact Option.some_ne_none _ h
    · intro hb
      exact Sketches.hllMerge_eq_none (Or.inr hb)
  · intro x y
    unfold Sketches.cmMerge
    split_ifs with h
    · simpa using h
    · simp [h]
  · intro d w x y hX hY
    refine ⟨{ x with
        table := List.zipWith (fun r1 r2 => List.zipWith (fun u v => (u + v) % 2 ^ 64) r1 r2)
          x.table y.table,
        count := (x.count + y.count) % 2 ^ 64 }, ?_, rfl, ?_⟩
    · unfold Sketches.cmMerge
      rw [if_neg (by simp [hX.1, hY.1, hX.2.1, hY.2.1])]
    · intro i j hi hj
      exact Sketches.cellVal_zip x y d w hX hY i j hi hj

/-- Witness for C6 at concrete sketches: merge commutativity of two `b = 4`
HyperLogLogs and the cell-wise sum of two small `2 × 3` Count-Min sketches. -/
theorem C6_sketch_merge_laws_witness :
    Sketches.hllMerge (Sketches.newHyperLogLog 4)
        (Sketches.hllAdd [97] (Sketches.newHyperLogLog 4)) =
      Sketches.hllMerge (Sketches.hllAdd [97] (Sketches.newHyperLogLog 4))
        (Sketches.newHyperLogLog 4) ∧
    (∃ z, Sketches.cmMerge (Sketches.cmAddSeq [ ([0], 7) ] (Sketches.cmEmpty 2 3 0 0))
          (Sketches.cmEmpty 2 3 0 0) = some z ∧
        z.count = ((Sketches.cmAddSeq [ ([0], 7) ] (Sketches.cmEmpty 2 3 0 0)).count +
            (Sketches.cmEmpty 2 3 0 0).count) % 2 ^ 64 ∧
        ∀ i j : ℕ, i < 2 → j < 3 →
          Sketches.cellVal z i j =
            (Sketches.cellVal (Sketches.cmAddSeq [ ([0], 7) ] (Sketches.cmEmpty 2 3 0 0)) i j +
              Sketches.cellVal (Sketches.cmEmpty 2 3 0 0) i j) % 2 ^ 64) :=
  ⟨C6_sketch_merge_laws.1 (Sketches.newHyperLogLog 4)
      (Sketches.hllAdd [97] (Sketches.newHyperLogLog 4)) ⟨by decide, by decide, rfl⟩ ⟨by decide, by decide, rfl⟩,
    C6_sketch_merge_laws.2.2.2.2.2 2 3
      (Sketches.cmAddSeq [ ([0], 7) ] (Sketches.cmEmpty 2 3 0 0))
      (Sketches.cmEmpty 2 3 0 0) (by decide) (by decide)⟩

/-! ## Sketch serialization -/

namespace Sketches

/-- `binary.LittleEndian.PutUint64`: the eight little-endian bytes of `n`. -/
def putUint64LE (n : ℕ) : List ℕ :=
  [n % 256, n / 2 ^ 8 % 256, n / 2 ^ 16 % 256, n / 2 ^ 24 % 256,
    n / 2 ^ 32 % 256, n / 2 ^ 40 % 256, n / 2 ^ 48 % 256, n / 2 ^ 56 % 256]

/-- `binary.LittleEndian.Uint32` on the first four bytes. -/
def readUint32LE : List ℕ → ℕ
  | b0 :: b1 :: b2 :: b3 :: _ => b0 + 2 ^ 8 * b1 + 2 ^ 16 * b2 + 2 ^ 24 * b3
  | _ => 0

/-- `binary.LittleEndian.Uint64` on the first eight bytes. -/
def readUint64LE : List ℕ → ℕ
  | b0 :: b1 :: b2 :: b3 :: b4 :: b5 :: b6 :: b7 :: _ =>
    b0 + 2 ^ 8 * b1 + 2 ^ 16 * b2 + 2 ^ 24 * b3 +
      2 ^ 32 * b4 + 2 ^ 40 * b5 + 2 ^ 48 * b6 + 2 ^ 56 * b7
  | _ => 0

/-- Embedding of `CountMinSketch.Serialize` (countmin.go:143-167): a 32-byte
header `d, w, epsilon bits, delta bits, count` followed by the row-major
table cells, all little-endian. -/
def cmSerialize (s : CMS) : List ℕ :=
  putUint32LE s.d ++ (putUint32LE s.w ++ (putUint64LE s.epsilonBits ++
    (putUint64LE s.deltaBits ++ (putUint64LE s.count ++
      (s.table.flatten.map putUint64LE).flatten))))

/-- The cell-reading loop of `DeserializeCountMinSketch`: `n` consecutive
little-endian `uint64` values. -/
def readCells : ℕ → List ℕ → List ℕ
  | 0, _ => []
  | n + 1, bs => readUint64LE bs :: readCells n (bs.drop 8)

/-- Regroup a flat cell list into `d` rows of `w`. -/
def chunkRows : ℕ → ℕ → List ℕ → List (List ℕ)
  | 0, _, _ => []
  | i + 1, w, cells => cells.take w :: chunkRows i w (cells.drop w)

/-- Embedding of `DeserializeCountMinSketch` (countmin.go:170-211): fails
below 32 bytes, fails when the length differs from the header-declared size
`32 + d*w*8` (a `uint32` product, hence the `% 2^32`), else rebuilds the
sketch. -/
def deserializeCMS (data : List ℕ) : Option CMS :=
  if data.length < 32 then none
  else if data.length ≠ 32 + readUint32LE data * readUint32LE (data.drop 4) * 8 % 2 ^ 32 then
    none
  else some ⟨readUint32LE data, readUint32LE (data.drop 4), readUint64LE (data.drop 8),
    readUint64LE (data.drop 16), readUint64LE (data.drop 24),
    chunkRows (readUint32LE data) (readUint32LE (data.drop 4))
      (readCells (readUint32LE data * readUint32LE (data.drop 4)) (data.drop 32))⟩

/-- Embedding of `HyperLogLog.Serialize` (countmin.go:379-385): the byte `b`,
the four little-endian bytes of `m`, then the registers. -/
def hllSerialize (h : HLL) : List ℕ := h.b :: (putUint32LE h.m ++ h.registers)

/-- Embedding of `DeserializeHyperLogLog` (countmin.go:388-404): fails below
5 bytes, fails when the length differs from `5 + m`, else builds
`NewHyperLogLog(b)` and copies `min(m', len−5)` register bytes into it. -/
def deserializeHLL (data : List ℕ) : Option HLL :=
  if data.length < 5 then none
  else if data.length ≠ 5 + readUint32LE (data.drop 1) then none
  else some { newHyperLogLog (data.headD 0) with
    registers :=
      (data.drop 5).take (min (newHyperLogLog (data.headD 0)).m (data.length - 5)) ++
        List.replicate
          ((newHyperLogLog (data.headD 0)).m -
            min (newHyperLogLog (data.headD 0)).m (data.length - 5)) 0 }

/-- Well-formedness of a Count-Min sketch for serialization: the `uint32` /
`uint64` fields are in range, the byte size fits `uint32` (so the header
size computation does not wrap), and the table is `d × w`. -/
def CWF (s : CMS) : Prop :=
  s.d < 2 ^ 32 ∧ s.w < 2 ^ 32 ∧ s.d * s.w * 8 < 2 ^ 32 ∧
    s.epsilonBits < 2 ^ 64 ∧ s.deltaBits < 2 ^ 64 ∧ s.count < 2 ^ 64 ∧
    s.table.length = s.d ∧ (∀ r ∈ s.table, r.length = s.w) ∧
    (∀ r ∈ s.table, ∀ c ∈ r, c < 2 ^ 64)

instance (s : CMS) : Decidable (CWF s) := by unfold CWF; infer_instance

theorem readUint32LE_append (n : ℕ) (rest : List ℕ) (h : n < 2 ^ 32) :
    readUint32LE (putUint32LE n ++ rest) = n := by
  simp only [putUint32LE, List.cons_append, List.nil_append, readUint32LE]
  omega

theorem readUint64LE_append (n : ℕ) (rest : List ℕ) (h : n < 2 ^ 64) :
    readUint64LE (putUint64LE n ++ rest) = n := by
  simp only [putUint64LE, List.cons_append, List.nil_append, readUint64LE]
  omega

theorem readCells_encode (cells : List ℕ) (h : ∀ c ∈ cells, c < 2 ^ 64) :
    readCells cells.length ((cells.map putUint64LE).flatten) = cells := by
  induction cells with
  | nil => rfl
  | cons c t ih =>
    simp only [List.map_cons, List.flatten_cons, List.length_cons, readCells]
    rw [readUint64LE_append c _ (h c (by simp)),
      List.drop_left' (by simp [putUint64LE]),
      ih (fun x hx => h x (by simp [hx]))]

theorem chunkRows_flatten (t : List (List ℕ)) (w : ℕ) (hw : ∀ r ∈ t, r.length = w) :
    chunkRows t.length w t.flatten = t := by
  induction t with
  | nil => rfl
  | cons r rs ih =>
    simp only [List.flatten_cons, List.length_cons, chunkRows]
    rw [List.take_left' (hw r (by simp)), List.drop_left' (hw r (by simp)),
      ih (fun x hx => hw x (by simp [hx]))]

theorem flatten_length_uniform (t : List (List ℕ)) (w : ℕ)
    (hw : ∀ r ∈ t, r.length = w) : t.flatten.length = t.length * w := by
  induction t with
  | nil => simp
  | cons r rs ih =>
    simp only [List.flatten_cons, List.length_append, List.length_cons]
    rw [hw r (by simp), ih (fun x hx => hw x (by simp [hx]))]
    ring

theorem cmSerialize_length (s : CMS) (hwf : CWF s) :
    (cmSerialize s).length = 32 + s.d * s.w * 8 := by
  obtain ⟨_, _, _, _, _, _, hlen, hrows, _⟩ := hwf
  have hcells : s.table.flatten.length = s.d * s.w := by
    rw [flatten_length_uniform s.table s.w hrows, hlen]
  have hbytes : ((s.table.flatten.map putUint64LE).flatten).length = s.d * s.w * 8 := by
    rw [flatten_length_uniform _ 8 (by
      intro r hr
      obtain ⟨c, _, rfl⟩ := List.mem_map.mp hr
      simp [putUint64LE])]
    rw [List.length_map, hcells]
  simp only [cmSerialize, List.length_append]
  rw [hbytes]
  simp only [putUint32LE, putUint64LE, List.length_cons, List.length_nil]
  omega

end Sketches

namespace Sketches

theorem deserializeCMS_cmSerialize (s : CMS) (hwf : CWF s) :
    deserializeCMS (cmSerialize s) = some s := by
  obtain ⟨hd32, hw32, hprod, heps, hdelta, hcount, hlen, hrows, hcells⟩ := hwf
  have hL := cmSerialize_length s
    ⟨hd32, hw32, hprod, heps, hdelta, hcount, hlen, hrows, hcells⟩
  have hser : cmSerialize s = putUint32LE s.d ++ (putUint32LE s.w ++
      (putUint64LE s.epsilonBits ++ (putUint64LE s.deltaBits ++
        (putUint64LE s.count ++ (s.table.flatten.map putUint64LE).flatten)))) := rfl
  have h0 : readUint32LE (cmSerialize s) = s.d := by
    rw [hser]
    exact readUint32LE_append _ _ hd32
  have h4 : (cmSerialize s).drop 4 = putUint32LE s.w ++
      (putUint64LE s.epsilonBits ++ (putUint64LE s.deltaBits ++
        (putUint64LE s.count ++ (s.table.flatten.map putUint64LE).flatten))) := by
    rw [hser]
    exact List.drop_left' (by simp [putUint32LE])
  have h4r : readUint32LE ((cmSerialize s).drop 4) = s.w := by
    rw [h4]
    exact readUint32LE_append _ _ hw32
  have h8 : (cmSerialize s).drop 8 = putUint64LE s.epsilonBits ++
      (putUint64LE s.deltaBits ++
        (putUint64LE s.count ++ (s.table.flatten.map putUint64LE).flatten)) := by
    rw [hser, ← List.append_assoc]
    exact List.drop_left' (by simp [putUint32LE])
  have h8r : readUint64LE ((cmSerialize s).drop 8) = s.epsilonBits := by
    rw [h8]
    exact readUint64LE_append _ _ heps
  have h16 : (cmSerialize s).drop 16 = putUint64LE s.deltaBits ++
      (putUint64LE s.count ++ (s.table.flatten.map putUint64LE).flatten) := by
    rw [hser, ← List.append_assoc, ← List.append_assoc]
    exact List.drop_left' (by simp [putUint32LE, putUint64LE])
  have h16r : readUint64LE ((cmSerialize s).drop 16) = s.deltaBits := by
    rw [h16]
    exact readUint64LE_append _ _ hdelta
  have h24 : (cmSerialize s).drop 24 = putUint64LE s.count ++
      (s.table.flatten.map putUint64LE).flatten := by
    rw [hser, ← List.append_assoc, ← List.append_assoc, ← List.append_assoc]
    exact List.drop_left' (by simp [putUint32LE, putUint64LE])
  have h24r : readUint64LE ((cmSerialize s).drop 24) = s.count := by
    rw [h24]
    exact readUint64LE_append _ _ hcount
  have h32 : (cmSerialize s).drop 32 = (s.table.flatten.map putUint64LE).flatten := by
    rw [hser, ← List.append_assoc, ← List.append_assoc, ← List.append_assoc,
      ← List.append_assoc]
    exact List.drop_left' (by simp [putUint32LE, putUint64LE])
  have hflat : s.table.flatten.length = s.d * s.w := by
    rw [flatten_length_uniform s.table s.w hrows, hlen]
  have hcellsread : readCells (s.d * s.w) ((cmSerialize s).drop 32) = s.table.flatten := by
    rw [h32, ← hflat]
    exact readCells_encode s.table.flatten (by
      intro c hc
      obtain ⟨r, hr, hcr⟩ := List.mem_flatten.mp hc
      exact hcells r hr c hcr)
  unfold deserializeCMS
  rw [h0, h4r, hcellsread, h8r, h16r, h24r]
  rw [if_neg (by omega), if_neg (by rw [hL]; omega)]
  rw [(by rw [← hlen]; exact chunkRows_flatten s.table s.w hrows :
    chunkRows s.d s.w s.table.flatten = s.table)]

theorem deserializeHLL_hllSerialize (h : HLL) (hwf : HWF h)
    (hb4 : 4 ≤ h.b) (hb16 : h.b ≤ 16) :
    deserializeHLL (hllSerialize h) = some h := by
  obtain ⟨hm, hlen, halpha⟩ := hwf
  have hm32 : h.m < 2 ^ 32 := by
    rw [hm]
    calc 2 ^ h.b ≤ 2 ^ 16 := Nat.pow_le_pow_right (by norm_num) hb16
      _ < 2 ^ 32 := by norm_num
  have hL : (hllSerialize h).length = 5 + h.m := by
    simp [hllSerialize, putUint32LE, hlen]
    omega
  have hmr : readUint32LE ((hllSerialize h).drop 1) = h.m :=
    readUint32LE_append _ _ hm32
  have hd5 : (hllSerialize h).drop 5 = h.registers := by
    show (putUint32LE h.m ++ h.registers).drop 4 = h.registers
    exact List.drop_left' (by simp [putUint32LE])
  have hb0 : (hllSerialize h).headD 0 = h.b := rfl
  have hnew : newHyperLogLog h.b =
      ⟨List.replicate (2 ^ h.b) 0, h.b, 2 ^ h.b, alphaOf (2 ^ h.b)⟩ := by
    unfold newHyperLogLog
    rw [if_neg (by omega)]
  unfold deserializeHLL
  rw [hb0, hmr, hL, hnew, hd5]
  rw [if_neg (by omega), if_neg (by omega)]
  simp only
  rw [← hm]
  have h5m : 5 + h.m - 5 = h.m := by omega
  rw [h5m, Nat.min_self, Nat.sub_self]
  rw [(by rw [← hlen]; exact List.take_length h.registers :
    h.registers.take h.m = h.registers)]
  simp only [List.replicate_zero, List.append_nil]
  rw [← halpha]

theorem deserializeCMS_length_mismatch (data : List ℕ) (h32 : 32 ≤ data.length)
    (hne : data.length ≠
      32 + readUint32LE data * readUint32LE (data.drop 4) * 8 % 2 ^ 32) :
    deserializeCMS data = none := by
  unfold deserializeCMS
  rw [if_neg (by omega), if_pos hne]

theorem deserializeHLL_length_mismatch (data : List ℕ) (h5 : 5 ≤ data.length)
    (hne : data.length ≠ 5 + readUint32LE (data.drop 1)) :
    deserializeHLL data = none := by
  unfold deserializeHLL
  rw [if_neg (by omega), if_pos hne]

end Sketches

/-- Claim C2: serialization round-trips for both sketches — a well-formed
Count-Min sketch deserializes from its own bytes to an identical sketch
(`d`, `w`, epsilon and delta bits, count, table), a HyperLogLog built by
`NewHyperLogLog` (so `b ∈ [4, 16]`, `m = 2^b`) round-trips to identical `b`,
`m` and registers, and both deserializers fail whenever the byte length does
not match the header-declared size. -/
theorem C2_serialization_roundtrip :
    (∀ s : Sketches.CMS, Sketches.CWF s →
        Sketches.deserializeCMS (Sketches.cmSerialize s) = some s) ∧
    (∀ h : Sketches.HLL, Sketches.HWF h → 4 ≤ h.b → h.b ≤ 16 →
        Sketches.deserializeHLL (Sketches.hllSerialize h) = some h) ∧
    (∀ data : List ℕ, 32 ≤ data.length →
        data.length ≠ 32 + Sketches.readUint32LE data *
          Sketches.readUint32LE (data.drop 4) * 8 % 2 ^ 32 →
        Sketches.deserializeCMS data = none) ∧
    (∀ data : List ℕ, 5 ≤ data.length →
        data.length ≠ 5 + Sketches.readUint32LE (data.drop 1) →
        Sketches.deserializeHLL data = none) :=
  ⟨Sketches.deserializeCMS_cmSerialize, Sketches.deserializeHLL_hllSerialize,
    Sketches.deserializeCMS_length_mismatch, Sketches.deserializeHLL_length_mismatch⟩

/-- Witness for C2 at concrete sketches and byte slices: a `1 × 2` Count-Min
sketch and a `b = 4` HyperLogLog round-trip; a 33-byte all-zero slice and a
6-byte all-zero slice are rejected. -/
theorem C2_serialization_roundtrip_witness :
    Sketches.deserializeCMS (Sketches.cmSerialize ⟨1, 2, 5, 6, 7, [[3, 4]]⟩) =
      some ⟨1, 2, 5, 6, 7, [[3, 4]]⟩ ∧
    Sketches.deserializeHLL (Sketches.hllSerialize (Sketches.newHyperLogLog 4)) =
      some (Sketches.newHyperLogLog 4) ∧
    Sketches.deserializeCMS (List.replicate 33 0) = none ∧
    Sketches.deserializeHLL (List.replicate 6 0) = none :=
  ⟨C2_serialization_roundtrip.1 ⟨1, 2, 5, 6, 7, [[3, 4]]⟩ (by decide),
    C2_serialization_roundtrip.2.1 (Sketches.newHyperLogLog 4)
      ⟨by decide, by decide, rfl⟩ (by decide) (by decide),
    C2_serialization_roundtrip.2.2.1 (List.replicate 33 0) (by decide) (by decide),
    C2_serialization_roundtrip.2.2.2 (List.replicate 6 0) (by decide) (by decide)⟩

/-! ## String utilities shared by the planner, sampler and executor
embeddings: Go `strings` / `strconv` operations over `List Char`. -/

namespace StrOps

/-- `strings.ToUpper` (ASCII range, which covers every name the code
handles). -/
def upperChars (l : List Char) : List Char := l.map Char.toUpper

/-- `strings.Contains`: does `sub` occur in `hay`? -/
def containsSub : List Char → List Char → Bool
  | [], sub => sub.isEmpty
  | c :: t, sub => sub.isPrefixOf (c :: t) || containsSub t sub

/-- `strings.Index`: position of the first occurrence of `sub` in `hay`,
`none` when absent. -/
def idxOfSub : List Char → List Char → Option ℕ
  | [], sub => if sub.isEmpty then some 0 else none
  | c :: t, sub =>
    if sub.isPrefixOf (c :: t) then some 0
    else (idxOfSub t sub).map (· + 1)

/-- `strings.LastIndex` for a single character. -/
def lastIdxOf : List Char → Char → Option ℕ
  | [], _ => none
  | a :: t, c =>
    match lastIdxOf t c with
    | some i => some (i + 1)
    | none => if a = c then some 0 else none

/-- Numeric value of a decimal digit character. -/
def digitVal (c : Char) : ℕ := c.toNat - 48

/-- Value of a decimal digit string, most significant first. -/
def digitsToNat (ds : List Char) : ℕ := ds.foldl (fun a c => 10 * a + digitVal c) 0

/-- Exponent suffix of `strconv.ParseFloat`: empty input keeps the mantissa,
`e`/`E` with optional sign and digits scales it, anything else fails. -/
def parseExpTail (l : List Char) (mant : ℚ) : Option ℚ :=
  match l with
  | [] => some mant
  | e :: t =>
    if e = 'e' ∨ e = 'E' then
      let st : ℤ × List Char :=
        match t with
        | '+' :: u => (1, u)
        | '-' :: u => (-1, u)
        | u => (1, u)
      let ed := st.2.takeWhile Char.isDigit
      if ed.isEmpty ∨ ¬ (st.2.dropWhile Char.isDigit).isEmpty then none
      else some (mant * 10 ^ (st.1 * (digitsToNat ed : ℤ)))
    else none

/-- Unsigned decimal of `strconv.ParseFloat`: digits, an optional dot with
further digits (at least one digit in total), then an optional exponent. -/
def parseUnsigned (l : List Char) : Option ℚ :=
  let ip := l.takeWhile Char.isDigit
  let l2 := l.dropWhile Char.isDigit
  match l2 with
  | '.' :: t =>
    let fp := t.takeWhile Char.isDigit
    let l3 := t.dropWhile Char.isDigit
    if ip.isEmpty ∧ fp.isEmpty then none
    else parseExpTail l3 ((digitsToNat ip : ℚ) + (digitsToNat fp : ℚ) / 10 ^ fp.length)
  | _ =>
    if ip.isEmpty then none
    else parseExpTail l2 ((digitsToNat ip : ℚ))

/-- Model of `strconv.ParseFloat` on the decimal forms the repository
produces (sign, digits, dot, exponent); the exotic accepted spellings
(`inf`, `nan`, hex floats) are not produced by any caller here and are
modelled as failures.  The exact value is kept as a rational. -/
def parseFloatQ (l : List Char) : Option ℚ :=
  match l with
  | '+' :: t => parseUnsigned t
  | '-' :: t => (parseUnsigned t).map (fun q => -q)
  | t => parseUnsigned t

end StrOps

/-! ## Executor result scaling (`pkg/executor`, embedded in
`src/pkg/storage/meta.go` part 2, and the API layer `scaleMLOptimizedResults`
in `src/unnamed/part_003`) -/

namespace Executor

/-- A SQL result cell as the executor sees it: numeric (`float64`/ints),
string, or anything else. -/
inductive Val
  | num (q : ℚ)
  | str (s : String)
  | null
deriving DecidableEq, Repr

/-- Embedding of `convertToFloat64`: numeric values convert, strings go
through `ParseFloat`, the rest fail. -/
def convertToFloat64 : Val → Option ℚ
  | Val.num q => some q
  | Val.str s => StrOps.parseFloatQ s.data
  | Val.null => none

/-- The column test of `scaleSampleResults` (executor path): case-folded name
contains COUNT, SUM, TOTAL or REVENUE. -/
def needsScalingSample (col : String) : Bool :=
  StrOps.containsSub (StrOps.upperChars col.data) ("COUNT".data) ||
    StrOps.containsSub (StrOps.upperChars col.data) ("SUM".data) ||
    StrOps.containsSub (StrOps.upperChars col.data) ("TOTAL".data) ||
    StrOps.containsSub (StrOps.upperChars col.data) ("REVENUE".data)

/-- The column test of `scaleMLOptimizedResults` (API path): additionally
scales ORDERS columns. -/
def needsScalingML (col : String) : Bool :=
  StrOps.containsSub (StrOps.upperChars col.data) ("COUNT".data) ||
    StrOps.containsSub (StrOps.upperChars col.data) ("SUM".data) ||
    StrOps.containsSub (StrOps.upperChars col.data) ("TOTAL".data) ||
    StrOps.containsSub (StrOps.upperChars col.data) ("REVENUE".data) ||
    StrOps.containsSub (StrOps.upperChars col.data) ("ORDERS".data)

/-- A result row: column name to value (Go `map[string]any`). -/
def Row := List (String × Val)

/-- Map lookup `results[i][col]`. -/
def lookupVal (row : Row) (col : String) : Option Val :=
  (row.find? (fun e => e.1 == col)).map (fun e => e.2)

/-- Map update `results[i][col] = v`. -/
def setVal (row : Row) (col : String) (v : Val) : Row :=
  row.map (fun e => if e.1 == col then (e.1, v) else e)

/-- One iteration of the inner loop of `scaleSampleResults`: scale column
`col` of the row when it exists, needs scaling, and converts. -/
def scaleEntry (scale : ℚ) (col : String) (row : Row) : Row :=
  match lookupVal row col with
  | some v =>
    if needsScalingSample col then
      match convertToFloat64 v with
      | some q => setVal row col (Val.num (q * scale))
      | none => row
    else row
  | none => row

/-- Embedding of `scaleSampleResults` (executor): no-op for a non-positive
fraction or empty inputs, else multiplies the qualifying columns by
`1/fraction`. -/
def scaleSampleResults (fr : ℚ) (cols : List String) (results : List Row) : List Row :=
  if fr ≤ 0 ∨ results.isEmpty ∨ cols.isEmpty then results
  else results.map (fun row => cols.foldl (fun r col => scaleEntry (1 / fr) col r) row)

/-- The per-row loop of `scaleMLOptimizedResults`: every map entry whose name
qualifies is multiplied by the scale. -/
def mlScaleRow (scale : ℚ) (row : Row) : Row :=
  row.map (fun e =>
    if needsScalingML e.1 then
      match convertToFloat64 e.2 with
      | some q => (e.1, Val.num (q * scale))
      | none => e
    else e)

/-- Embedding of the scaling core of `scaleMLOptimizedResults` (API layer),
after the sample fraction has been recovered from the transformation notes:
no-op for a non-positive fraction, else scales every qualifying column. -/
def scaleMLOptimizedResults (fr : ℚ) (results : List Row) : List Row :=
  if fr ≤ 0 then results else results.map (mlScaleRow (1 / fr))

/-- The claim's column set, written from the claim's words. -/
def claimNeedsScaling (col : String) : Bool :=
  [ "COUNT", "SUM", "TOTAL", "REVENUE", "ORDERS" ].any
    (fun t => StrOps.containsSub (StrOps.upperChars col.data) t.data)

end Executor

/-- Claim C4 (amended): the ML-optimized result path scales exactly the
columns whose case-folded name contains COUNT, SUM, TOTAL, REVENUE or
ORDERS, but the executor's sample-plan path (`scaleSampleResults`) scales
only COUNT, SUM, TOTAL and REVENUE — ORDERS columns are left unchanged
there; columns matching none of the substrings (such as pure AVG columns)
are unchanged on both paths. -/
theorem C4_aggregate_scaling :
    (∀ col : String, Executor.needsScalingML col = Executor.claimNeedsScaling col) ∧
    (∀ col : String, Executor.needsScalingSample col = true →
        Executor.claimNeedsScaling col = true) ∧
    (Executor.needsScalingSample "ORDERS" = false ∧
      Executor.claimNeedsScaling "ORDERS" = true) ∧
    (∀ fr : ℚ, 0 < fr → ∀ c : String, ∀ q : ℚ,
        Executor.scaleSampleResults fr [c] [ [(c, Executor.Val.num q)] ] =
          [ [(c, if Executor.needsScalingSample c then Executor.Val.num (q * (1 / fr))
              else Executor.Val.num q)] ]) ∧
    (∀ fr : ℚ, 0 < fr → ∀ c : String, ∀ q : ℚ,
        Executor.scaleMLOptimizedResults fr [ [(c, Executor.Val.num q)] ] =
          [ [(c, if Executor.needsScalingML c then Executor.Val.num (q * (1 / fr))
              else Executor.Val.num q)] ]) := by
  refine ⟨?_, ?_, by decide, ?_, ?_⟩
  · intro col
    simp [Executor.needsScalingML, Executor.claimNeedsScaling, Bool.or_assoc]
  · intro col h
    simp only [Executor.needsScalingSample, Bool.or_eq_true] at h
    simp only [Executor.claimNeedsScaling, List.any_cons, List.any_nil, Bool.or_eq_true]
    tauto
  · intro fr hfr c q
    have hcond : ¬ (fr ≤ 0 ∨
        ([ [(c, Executor.Val.num q)] ] : List Executor.Row).isEmpty = true ∨
        ([c] : List String).isEmpty = true) := by
      simp only [List.isEmpty, Bool.or_eq_true, decide_eq_true_eq]
      push_neg
      refine ⟨by linarith, by simp, by simp⟩
    unfold Executor.scaleSampleResults
    rw [if_neg hcond]
    by_cases hns : Executor.needsScalingSample c
    · simp [Executor.scaleEntry, Executor.lookupVal, Executor.setVal,
        Executor.convertToFloat64, hns, List.find?]
    · simp [Executor.scaleEntry, Executor.lookupVal, hns, List.find?]
  · intro fr hfr c q
    have hcond : ¬ (fr ≤ 0) := by linarith
    unfold Executor.scaleMLOptimizedResults
    rw [if_neg hcond]
    by_cases hns : Executor.needsScalingML c
    · simp [Executor.mlScaleRow, Executor.convertToFloat64, hns]
    · simp [Executor.mlScaleRow, hns]

/-- Counterexample to claim C4 as stated on the sample-plan path: an ORDERS
column in a half-fraction sample result is left at 10, where the claim
requires it multiplied by `1/f = 2`. -/
theorem C4_aggregate_scaling_counterexample :
    Executor.scaleSampleResults (1 / 2) [ "ORDERS" ]
        [ [("ORDERS", Executor.Val.num 10)] ] =
      [ [("ORDERS", Executor.Val.num 10)] ] ∧
    Executor.claimNeedsScaling "ORDERS" = true ∧
    Executor.Val.num 10 ≠ Executor.Val.num 20 := by
  refine ⟨?_, by decide, by simp⟩
  have hns : Executor.needsScalingSample "ORDERS" = false := by decide
  have hcond : ¬ (((1 : ℚ) / 2) ≤ 0 ∨
      ([ [("ORDERS", Executor.Val.num 10)] ] : List Executor.Row).isEmpty = true ∨
      ([ "ORDERS" ] : List String).isEmpty = true) := by
    simp only [List.isEmpty, Bool.or_eq_true, decide_eq_true_eq]
    push_neg
    refine ⟨by norm_num, by simp, by simp⟩
  unfold Executor.scaleSampleResults
  rw [if_neg hcond]
  simp [Executor.scaleEntry, Executor.lookupVal, hns, List.find?]

/-- Witness for C4 at a concrete fraction and row: a SUM column at fraction
1/2 is doubled on the sample path. -/
theorem C4_aggregate_scaling_witness :
    (0 : ℚ) < 1 / 2 ∧
      Executor.scaleSampleResults (1 / 2) [ "SUM" ]
          [ [("SUM", Executor.Val.num 3)] ] =
        [ [("SUM", if Executor.needsScalingSample "SUM" then
            Executor.Val.num (3 * (1 / (1 / 2))) else Executor.Val.num 3)] ] :=
  ⟨by norm_num, C4_aggregate_scaling.2.2.2.1 (1 / 2) (by norm_num) "SUM" 3⟩

/-! ## Sampler fraction naming (`pkg/sampler/sampler.go`) -/

namespace Sampler

/-- The character of a decimal digit. -/
def digitChar (d : ℕ) : Char :=
  if d = 0 then '0' else if d = 1 then '1' else if d = 2 then '2'
  else if d = 3 then '3' else if d = 4 then '4' else if d = 5 then '5'
  else if d = 6 then '6' else if d = 7 then '7' else if d = 8 then '8' else '9'

/-- Decimal digits of `n`, fuel-driven (any fuel above the digit count
works; `n + 1` always suffices). -/
def natDigitsAux : ℕ → ℕ → List Char
  | 0, _ => []
  | fuel + 1, n => if n = 0 then [] else natDigitsAux fuel (n / 10) ++ [ digitChar (n % 10) ]

/-- Decimal rendering of a natural number. -/
def natDigitsChars (n : ℕ) : List Char := if n = 0 then ['0'] else natDigitsAux (n + 1) n

/-- Exactly `p` decimal digits of `n` (mod `10^p`), zero-padded. -/
def decDigitsPad : ℕ → ℕ → List Char
  | 0, _ => []
  | p + 1, n => decDigitsPad p (n / 10) ++ [ digitChar (n % 10) ]

/-- Model of `fmt.Sprintf("%.*f", prec, f)` for the nonnegative fractions the
sampler formats: round to `prec` decimals (to nearest; ties cannot arise from
binary `float64` inputs at these precisions) and print integer part, dot, and
zero-padded fraction digits. -/
def formatFixed (q : ℚ) (prec : ℕ) : List Char :=
  natDigitsChars ((round (q * 10 ^ prec)).toNat / 10 ^ prec) ++
    '.' :: decDigitsPad prec ((round (q * 10 ^ prec)).toNat % 10 ^ prec)

/-- `strings.Replace(s, old, new, 1)` for single characters. -/
def replaceFirst : List Char → Char → Char → List Char
  | [], _, _ => []
  | a :: t, c, r => if a = c then r :: t else a :: replaceFirst t c r

/-- `strings.TrimRight(s, "0")`. -/
def trimRight0 (l : List Char) : List Char :=
  (l.reverse.dropWhile (fun c => c = '0')).reverse

/-- The decimal precision `fractionName` chooses (sampler.go:37-40). -/
def goPrec (f : ℚ) : ℕ := if f < 0.001 then 6 else 3

/-- The scientific-notation fallback of `fractionName` (sampler.go:47-54),
taken only when the fixed-point form exceeds 12 characters.  For every
fraction in `(0, 1)` that form has at most 9 characters, so this branch is
reachable only for values at least 1, and it is modelled for those;
`int(math.Log10(f))` is the digit count of `⌊f⌋` minus one there. -/
def sciName (f : ℚ) : List Char :=
  if 1 ≤ f then
    replaceFirst (formatFixed (f / 10 ^ ((natDigitsChars ⌊f⌋.toNat).length - 1)) 2) '.' '_' ++
      'E' :: natDigitsChars ((natDigitsChars ⌊f⌋.toNat).length - 1)
  else [ '0', '_', '0' ]

/-- Embedding of `sampler.fractionName` (sampler.go:33-59): fixed-point
rendering at precision 3 (6 below 0.001), dot replaced by an underscore,
trailing zeros trimmed, a bare trailing underscore re-padded with `0`, the
scientific fallback above 12 characters, and a `0_` prefix enforced. -/
def fractionNameQ (f : ℚ) : String :=
  if f ≤ 0 then "0_000"
  else
    let s1 := replaceFirst (formatFixed f (goPrec f)) '.' '_'
    let s2 := trimRight0 s1
    let s3 := if s2.getLast? = some '_' then s2 ++ ['0'] else s2
    let s4 := if 12 < s3.length then sciName f else s3
    ⟨if ("0_".data).isPrefixOf s4 then s4 else '0' :: '_' :: s4⟩

end Sampler

/-! ## Planner sample-table name parsing (`pkg/planner/planner.go`) -/

namespace Planner

/-- `strings.Replace(s, "_", ".", -1)` character-wise. -/
def underscoreToDot (c : Char) : Char := if c = '_' then '.' else c

/-- The `__sample_` branch of `parseSampleTableName` (planner.go:149-159):
find the marker, keep the prefix as the base table, and parse the slice
starting at `idx + 10` (one past the 9-character marker, as the code slices)
with underscores turned into dots. -/
def sampleBranch (cs : List Char) : Option (String × ℚ) :=
  match StrOps.idxOfSub cs ("__sample_".data) with
  | some idx =>
    (StrOps.parseFloatQ ((cs.drop (idx + 10)).map underscoreToDot)).map
      (fun fr => (⟨cs.take idx⟩, fr))
  | none => none

/-- The `__strat_sample_` branch of `parseSampleTableName`
(planner.go:161-175): after the 15-character marker, parse past the last
underscore. -/
def stratBranch (cs : List Char) : Option (String × ℚ) :=
  match StrOps.idxOfSub cs ("__strat_sample_".data) with
  | some idx =>
    match StrOps.lastIdxOf (cs.drop (idx + 15)) '_' with
    | some lu =>
      (StrOps.parseFloatQ (((cs.drop (idx + 15)).drop (lu + 1)).map underscoreToDot)).map
        (fun fr => (⟨cs.take idx⟩, fr))
    | none => none
  | none => none

/-- Embedding of `Planner.parseSampleTableName` (planner.go:148-178): the
`__sample_` branch, then the `__strat_sample_` branch, else not a sample. -/
def parseSampleTableName (tableName : String) : String × ℚ × Bool :=
  match sampleBranch tableName.data with
  | some p => (p.1, p.2, true)
  | none =>
    match stratBranch tableName.data with
    | some p => (p.1, p.2, true)
    | none => (tableName, 0, false)

end Planner

namespace Sampler

theorem digitVal_digitChar (d : ℕ) (h : d < 10) : StrOps.digitVal (digitChar d) = d := by
  interval_cases d <;> decide

theorem isDigit_digitChar (d : ℕ) : (digitChar d).isDigit = true := by
  unfold digitChar
  split_ifs <;> decide

theorem decDigitsPad_length (p : ℕ) : ∀ n : ℕ, (decDigitsPad p n).length = p := by
  induction p with
  | zero => intro n; rfl
  | succ p ih => intro n; simp [decDigitsPad, ih]

theorem decDigitsPad_digits (p : ℕ) :
    ∀ n : ℕ, ∀ c ∈ decDigitsPad p n, c.isDigit = true := by
  induction p with
  | zero => intro n c hc; simp [decDigitsPad] at hc
  | succ p ih =>
    intro n c hc
    simp only [decDigitsPad, List.mem_append, List.mem_singleton] at hc
    rcases hc with hc | rfl
    · exact ih _ c hc
    · exact isDigit_digitChar _

theorem digitsToNat_append_digit (l : List Char) (c : Char) :
    StrOps.digitsToNat (l ++ [c]) = 10 * StrOps.digitsToNat l + StrOps.digitVal c := by
  simp [StrOps.digitsToNat, List.foldl_append]

theorem digitsToNat_decDigitsPad (p : ℕ) :
    ∀ n : ℕ, n < 10 ^ p → StrOps.digitsToNat (decDigitsPad p n) = n := by
  induction p with
  | zero =>
    intro n hn
    interval_cases n
    rfl
  | succ p ih =>
    intro n hn
    have h10 : n / 10 < 10 ^ p := by
      rw [Nat.div_lt_iff_lt_mul (by norm_num)]
      calc n < 10 ^ (p + 1) := hn
        _ = 10 ^ p * 10 := by ring
    rw [decDigitsPad, digitsToNat_append_digit, ih _ h10,
      digitVal_digitChar _ (Nat.mod_lt _ (by norm_num))]
    omega

theorem digitsToNat_all_zero (l : List Char) (h : ∀ c ∈ l, c = '0') :
    StrOps.digitsToNat l = 0 := by
  induction l with
  | nil => rfl
  | cons c t ih =>
    have hc : c = '0' := h c (by simp)
    have h0 : StrOps.digitsToNat (c :: t) =
        t.foldl (fun a c => 10 * a + StrOps.digitVal c) (StrOps.digitVal c) := by
      simp [StrOps.digitsToNat]
    subst hc
    have : ∀ c ∈ t, c = '0' := fun c hc => h c (by simp [hc])
    rw [h0]
    have hdv : StrOps.digitVal '0' = 0 := by decide
    rw [hdv]
    exact ih this

theorem trimRight0_spec (l : List Char) :
    l = trimRight0 l ++ List.replicate (l.length - (trimRight0 l).length) '0' := by
  unfold trimRight0
  conv_lhs => rw [← l.reverse_reverse, ← List.takeWhile_append_dropWhile
    (fun c => decide (c = '0')) l.reverse]
  rw [List.reverse_append]
  congr 1
  have hall : ∀ c ∈ l.reverse.takeWhile (fun c => c = '0'), c = '0' := by
    intro c hc
    have := List.mem_takeWhile_imp hc
    simpa using this
  rw [List.eq_replicate_of_mem hall, List.reverse_replicate]
  congr 1
  have := congrArg List.length (List.takeWhile_append_dropWhile
    (fun c => decide (c = '0')) l.reverse)
  simp only [List.length_append, List.length_reverse] at this
  simp only [List.length_reverse]
  omega

theorem trimRight0_getLast_ne (l : List Char) :
    (trimRight0 l).getLast? ≠ some '0' := by
  unfold trimRight0
  intro h
  rw [List.getLast?_reverse] at h
  cases hd : l.reverse.dropWhile (fun c => c = '0') with
  | nil => simp [hd] at h
  | cons a t =>
    have := List.head?_dropWhile_not (fun c => decide (c = '0')) l.reverse
    rw [hd] at this h
    simp at this h
    exact this h

theorem trimRight0_mem (l : List Char) (c : Char) (hc : c ∈ trimRight0 l) : c ∈ l := by
  have h2 : c ∈ trimRight0 l ++ List.replicate (l.length - (trimRight0 l).length) '0' :=
    List.mem_append_left _ hc
  rw [← trimRight0_spec l] at h2
  exact h2

theorem trimRight0_eq_nil_all_zero (l : List Char) (h : trimRight0 l = []) :
    ∀ c ∈ l, c = '0' := by
  intro c hc
  have := trimRight0_spec l
  rw [h, List.nil_append] at this
  rw [this] at hc
  exact List.eq_of_mem_replicate hc

theorem digitsToNat_append_zeros (l : List Char) (k : ℕ) :
    StrOps.digitsToNat (l ++ List.replicate k '0') = StrOps.digitsToNat l * 10 ^ k := by
  induction k with
  | zero => simp
  | succ k ih =>
    rw [List.replicate_succ' , ← List.append_assoc, digitsToNat_append_digit, ih]
    have : StrOps.digitVal '0' = 0 := by decide
    rw [this]
    ring

end Sampler

namespace Sampler

theorem getLast?_mem (l : List Char) (a : Char) (h : l.getLast? = some a) : a ∈ l := by
  have h2 := List.getLast?_eq_getLast l (by rintro rfl; simp at h)
  rw [h2] at h
  exact (Option.some_inj.mp h) ▸ List.getLast_mem _

theorem goPrec_le (f : ℚ) : goPrec f ≤ 6 := by
  unfold goPrec
  split_ifs <;> norm_num

theorem trimRight0_cons2 (pad : List Char) :
    trimRight0 ('0' :: '_' :: pad) =
      if trimRight0 pad = [] then ['0', '_'] else '0' :: '_' :: trimRight0 pad := by
  have hnil : trimRight0 pad = [] ↔ pad.reverse.dropWhile (fun c => c = '0') = [] := by
    unfold trimRight0
    simp
  unfold trimRight0
  simp only [List.reverse_cons, List.append_assoc, List.cons_append, List.nil_append]
  rw [List.dropWhile_append]
  by_cases hd : pad.reverse.dropWhile (fun c => decide (c = '0')) = []
  · simp [hd]
  · simp [hd, List.reverse_append]

theorem fractionNameQ_structure (f : ℚ) (h0 : 0 < f)
    (hn : round (f * 10 ^ goPrec f) < 10 ^ goPrec f) :
    (fractionNameQ f).data = '0' :: '_' ::
      (if trimRight0 (decDigitsPad (goPrec f) (round (f * 10 ^ goPrec f)).toNat) = []
        then ['0']
        else trimRight0 (decDigitsPad (goPrec f) (round (f * 10 ^ goPrec f)).toNat)) := by
  have hnn : (0 : ℤ) ≤ round (f * 10 ^ goPrec f) := by
    rw [round_eq]
    exact Int.floor_nonneg.mpr (by positivity)
  have hmZ : ((round (f * 10 ^ goPrec f)).toNat : ℤ) = round (f * 10 ^ goPrec f) :=
    Int.toNat_of_nonneg hnn
  have hmp : (round (f * 10 ^ goPrec f)).toNat < 10 ^ goPrec f := by
    have h10 : ((10 : ℤ) ^ goPrec f) = ((10 ^ goPrec f : ℕ) : ℤ) := by push_cast; ring
    omega
  set m : ℕ := (round (f * 10 ^ goPrec f)).toNat with hm
  set pad : List Char := decDigitsPad (goPrec f) m with hpad
  set ds : List Char := trimRight0 pad with hds
  have hff : formatFixed f (goPrec f) = '0' :: '.' :: pad := by
    unfold formatFixed
    rw [← hm, Nat.div_eq_of_lt hmp, Nat.mod_eq_of_lt hmp, ← hpad]
    rfl
  have hrf : replaceFirst ('0' :: '.' :: pad) '.' '_' = '0' :: '_' :: pad := by
    simp [replaceFirst]
  have hpadlen : pad.length = goPrec f := by rw [hpad]; exact decDigitsPad_length _ _
  have hdslen : ds.length ≤ goPrec f := by
    have h2 := congrArg List.length (trimRight0_spec pad)
    simp only [List.length_append, List.length_replicate] at h2
    rw [← hds] at h2
    omega
  unfold fractionNameQ
  rw [if_neg (not_le.mpr h0)]
  simp only [hff, hrf, trimRight0_cons2, ← hds]
  by_cases hdnil : ds = []
  · rw [if_pos hdnil, if_pos hdnil]
    rfl
  · rw [if_neg hdnil, if_neg hdnil]
    have hdig : ∀ c ∈ ds, c.isDigit = true := by
      intro c hc
      exact decDigitsPad_digits _ _ c (trimRight0_mem pad c (hds ▸ hc))
    have hlast : ('0' :: '_' :: ds).getLast? ≠ some '_' := by
      show (['0', '_'] ++ ds).getLast? ≠ some '_'
      rw [List.getLast?_append_of_ne_nil ['0', '_'] hdnil]
      intro h
      have := hdig '_' (getLast?_mem ds '_' h)
      simp at this
    rw [if_neg hlast]
    have hlen : ¬ (12 < ('0' :: '_' :: ds).length) := by
      simp only [List.length_cons]
      have := goPrec_le f
      omega
    rw [if_neg hlen]
    have hpre : ("0_".data).isPrefixOf ('0' :: '_' :: ds) = true := by
      have hdd : "0_".data = ['0', '_'] := rfl
      rw [hdd]
      simp [List.isPrefixOf]
    rw [if_pos hpre]

end Sampler

namespace Planner

theorem parseFloatQ_dot_digits (ds : List Char) (hne : ds ≠ [])
    (hd : ∀ c ∈ ds, c.isDigit = true) :
    StrOps.parseFloatQ ('.' :: ds) =
      some ((StrOps.digitsToNat ds : ℚ) / 10 ^ ds.length) := by
  have h1 : StrOps.parseFloatQ ('.' :: ds) = StrOps.parseUnsigned ('.' :: ds) := rfl
  rw [h1]
  unfold StrOps.parseUnsigned
  rw [List.takeWhile_cons_of_neg (by decide), List.dropWhile_cons_of_neg (by decide)]
  show (if ([] : List Char).isEmpty ∧ (ds.takeWhile Char.isDigit).isEmpty then none
    else StrOps.parseExpTail (ds.dropWhile Char.isDigit)
      ((StrOps.digitsToNat [] : ℚ) +
        (StrOps.digitsToNat (ds.takeWhile Char.isDigit) : ℚ) /
          10 ^ (ds.takeWhile Char.isDigit).length)) = _
  rw [List.takeWhile_eq_self_iff.mpr (by simpa using hd),
    List.dropWhile_eq_nil_iff.mpr (by simpa using hd)]
  rw [if_neg (by simp [List.isEmpty_iff, hne])]
  show some ((StrOps.digitsToNat [] : ℚ) + (StrOps.digitsToNat ds : ℚ) / 10 ^ ds.length) = _
  norm_num [StrOps.digitsToNat]

theorem sampleBranch_encoded (base : String) (ds : List Char) (cs : List Char)
    (hcs : cs = base.data ++ ("__sample_".data ++ ('0' :: '_' :: ds)))
    (hne : ds ≠ []) (hd : ∀ c ∈ ds, c.isDigit = true)
    (hidx : StrOps.idxOfSub cs ("__sample_".data) = some base.data.length) :
    sampleBranch cs = some (base, (StrOps.digitsToNat ds : ℚ) / 10 ^ ds.length) := by
  unfold sampleBranch
  rw [hidx]
  show (StrOps.parseFloatQ ((cs.drop (base.data.length + 10)).map underscoreToDot)).map
      (fun fr => (String.mk (cs.take base.data.length), fr)) =
    some (base, (StrOps.digitsToNat ds : ℚ) / 10 ^ ds.length)
  have hdrop : cs.drop (base.data.length + 10) = '_' :: ds := by
    rw [hcs, ← List.drop_drop, List.drop_left' rfl]
    rfl
  have hmap : ('_' :: ds).map underscoreToDot = '.' :: ds := by
    have h2 : underscoreToDot '_' = '.' := by decide
    have h3 : ds.map underscoreToDot = ds := by
      refine (List.map_congr_left ?_).trans (List.map_id _)
      intro c hc
      have hcne : ¬ (c = '_') := by
        intro hEq
        have := hd c hc
        rw [hEq] at this
        exact absurd this (by decide)
      simp [underscoreToDot, hcne]
    rw [List.map_cons, h2, h3]
  rw [hdrop, hmap, parseFloatQ_dot_digits ds hne hd, hcs, List.take_left' rfl]
  rfl

end Planner

/-- Claim C7 (amended): for every fraction `f` in `(0, 1)` that still rounds
below 1 at the precision `fractionName` uses (3 decimals, 6 below 0.001), and
every base name in which the `__sample_` marker first occurs at the base
boundary, `parseSampleTableName` applied to `<base>__sample_<fractionName f>`
reports a sample table with base `<base>` and the fraction `f` rounded to the
encoded precision.  (For `f ≥ 0.9995` the encoding starts `0_1_`… and is not
recognized at all; see the counterexample.) -/
theorem C7_fraction_name_roundtrip (base : String) (f : ℚ) (h0 : 0 < f) (h1 : f < 1)
    (hn : round (f * 10 ^ Sampler.goPrec f) < 10 ^ Sampler.goPrec f)
    (hidx : StrOps.idxOfSub (base ++ "__sample_" ++ Sampler.fractionNameQ f).data
        ("__sample_".data) = some base.data.length) :
    Planner.parseSampleTableName (base ++ "__sample_" ++ Sampler.fractionNameQ f) =
      (base, ((round (f * 10 ^ Sampler.goPrec f) : ℤ) : ℚ) / 10 ^ Sampler.goPrec f,
        true) := by
  have hnn : (0 : ℤ) ≤ round (f * 10 ^ Sampler.goPrec f) := by
    rw [round_eq]
    exact Int.floor_nonneg.mpr (by positivity)
  have hmZ : ((round (f * 10 ^ Sampler.goPrec f)).toNat : ℤ) =
      round (f * 10 ^ Sampler.goPrec f) := Int.toNat_of_nonneg hnn
  have hmp : (round (f * 10 ^ Sampler.goPrec f)).toNat < 10 ^ Sampler.goPrec f := by
    have h10 : ((10 : ℤ) ^ Sampler.goPrec f) = ((10 ^ Sampler.goPrec f : ℕ) : ℤ) := by
      push_cast
      ring
    omega
  set m : ℕ := (round (f * 10 ^ Sampler.goPrec f)).toNat with hm
  set pad : List Char := Sampler.decDigitsPad (Sampler.goPrec f) m with hpad
  set ds : List Char := Sampler.trimRight0 pad with hds
  have hstr := Sampler.fractionNameQ_structure f h0 hn
  rw [← hm, ← hpad, ← hds] at hstr
  have hdata : (base ++ "__sample_" ++ Sampler.fractionNameQ f).data =
      base.data ++ ("__sample_".data ++ (Sampler.fractionNameQ f).data) := by
    rw [String.data_append, String.data_append, List.append_assoc]
  have hpadm : StrOps.digitsToNat pad = m := Sampler.digitsToNat_decDigitsPad _ _ hmp
  have hvalQ : ((round (f * 10 ^ Sampler.goPrec f) : ℤ) : ℚ) = (m : ℚ) := by
    rw [← hmZ]
    push_cast
    ring
  by_cases hdnil : ds = []
  · have hm0 : m = 0 := by
      rw [← hpadm]
      exact Sampler.digitsToNat_all_zero pad (Sampler.trimRight0_eq_nil_all_zero pad hdnil)
    have hsb := Planner.sampleBranch_encoded base ['0']
      ((base ++ "__sample_" ++ Sampler.fractionNameQ f).data)
      (by rw [hdata, hstr, if_pos hdnil]) (by simp) (by decide) hidx
    unfold Planner.parseSampleTableName
    rw [hsb]
    show (base, (StrOps.digitsToNat ['0'] : ℚ) / 10 ^ (['0'] : List Char).length, true) = _
    have hz : StrOps.digitsToNat ['0'] = 0 := by decide
    rw [hz, hvalQ, hm0]
    norm_num
  · have hdig : ∀ c ∈ ds, c.isDigit = true := by
      intro c hc
      exact Sampler.decDigitsPad_digits _ _ c (Sampler.trimRight0_mem pad c hc)
    have hsb := Planner.sampleBranch_encoded base ds
      ((base ++ "__sample_" ++ Sampler.fractionNameQ f).data)
      (by rw [hdata, hstr, if_neg hdnil]) hdnil hdig hidx
    have hk := Sampler.trimRight0_spec pad
    rw [← hds] at hk
    have hmds : StrOps.digitsToNat ds * 10 ^ (pad.length - ds.length) = m := by
      rw [← hpadm]
      conv_rhs => rw [hk]
      rw [Sampler.digitsToNat_append_zeros]
    have hplen : pad.length = Sampler.goPrec f := Sampler.decDigitsPad_length _ _
    have hdsle : ds.length ≤ pad.length := by
      have h2 := congrArg List.length hk
      simp only [List.length_append, List.length_replicate] at h2
      omega
    have hval : (StrOps.digitsToNat ds : ℚ) / 10 ^ ds.length =
        (m : ℚ) / 10 ^ Sampler.goPrec f := by
      have hkk : Sampler.goPrec f = ds.length + (pad.length - ds.length) := by omega
      rw [← hmds, hkk, pow_add]
      push_cast
      rw [mul_div_mul_right _ _ (pow_ne_zero _ (by norm_num : (10 : ℚ) ≠ 0))]
    unfold Planner.parseSampleTableName
    rw [hsb]
    show (base, (StrOps.digitsToNat ds : ℚ) / 10 ^ ds.length, true) = _
    rw [hval, hvalQ]

/-- Counterexample to claim C7 as stated: for `f = 0.9999 ∈ (0, 1)` the
rendering rounds to `1.000`, `fractionName` produces `0_1_0`, and
`parseSampleTableName` fails to recognize the resulting table name as a
sample table at all. -/
theorem C7_fraction_name_roundtrip_counterexample :
    (0 : ℚ) < 9999 / 10000 ∧ (9999 / 10000 : ℚ) < 1 ∧
      (Planner.parseSampleTableName
          ("t" ++ "__sample_" ++ Sampler.fractionNameQ (9999 / 10000))).2.2 = false := by
  refine ⟨by norm_num, by norm_num, ?_⟩
  have hp : Sampler.goPrec (9999 / 10000) = 3 := by
    unfold Sampler.goPrec
    rw [if_neg (by norm_num)]
  have hr : round ((9999 / 10000 : ℚ) * 10 ^ (3 : ℕ)) = 1000 := by
    rw [round_eq, show ((9999 : ℚ) / 10000 * 10 ^ (3 : ℕ) + 1 / 2) = 5002 / 5 from by
      norm_num]
    exact Int.floor_eq_iff.mpr (by norm_num)
  have hf : Sampler.fractionNameQ (9999 / 10000) = "0_1_0" := by
    unfold Sampler.fractionNameQ
    rw [if_neg (by norm_num), hp]
    unfold Sampler.formatFixed
    rw [hr]
    decide
  rw [hf]
  decide

/-- Witness for C7 at a concrete fraction: `f = 1/20` encodes to `0_05` and
decodes back to `50/1000`. -/
theorem C7_fraction_name_roundtrip_witness :
    Planner.parseSampleTableName
        ("orders" ++ "__sample_" ++ Sampler.fractionNameQ (1 / 20)) =
      ("orders", ((round ((1 / 20 : ℚ) * 10 ^ Sampler.goPrec (1 / 20)) : ℤ) : ℚ) /
        10 ^ Sampler.goPrec (1 / 20), true) := by
  have hp : Sampler.goPrec (1 / 20) = 3 := by
    unfold Sampler.goPrec
    rw [if_neg (by norm_num)]
  have hr : round ((1 / 20 : ℚ) * 10 ^ (3 : ℕ)) = 50 := by
    rw [round_eq, show ((1 : ℚ) / 20 * 10 ^ (3 : ℕ) + 1 / 2) = 101 / 2 from by norm_num]
    exact Int.floor_eq_iff.mpr (by norm_num)
  have hf : Sampler.fractionNameQ (1 / 20) = "0_05" := by
    unfold Sampler.fractionNameQ
    rw [if_neg (by norm_num), hp]
    unfold Sampler.formatFixed
    rw [hr]
    decide
  exact C7_fraction_name_roundtrip "orders" (1 / 20) (by norm_num) (by norm_num)
    (by rw [hp, hr]; norm_num)
    (by rw [hf]; decide)

/-! ## Planner plans, strategy evaluation and selection
(`pkg/planner/planner.go`) -/

namespace Planner

/-- Embedding of `planner.PlanType`. -/
inductive PlanType
  | exact
  | sample
  | sketch
deriving DecidableEq, Repr

/-- Embedding of `planner.Plan`.  Costs are exact decimals (`ℚ`); estimated
errors involve `math.Sqrt`, hence `ℝ`. -/
structure PlanR where
  type : PlanType
  sqlText : String
  originalSQL : String
  table : String
  sampleTable : String
  sampleFraction : ℚ
  sketchType : String
  sketchColumn : String
  estimatedCost : ℚ
  estimatedError : ℝ
  reason : String

/-- Embedding of `planner.QueryFeatures`. -/
structure PFeatures where
  hasDistinct : Bool
  hasGroupBy : Bool
  aggregateTypes : List String
  groupByColumns : List String
  isHeavyHitter : Bool

/-- Embedding of `planner.TableStats`; `hasSketches` is the column→sketch
map, `bestSampleFraction` the smallest recorded sample fraction (0 when
none). -/
structure TableStats where
  rowCount : ℤ
  hasSketches : String → Bool
  bestSampleFraction : ℚ

/-- An exact `Plan` record with the given reason (cost and error filled by
the caller). -/
def exactPlanOf (sql table reason : String) (cost : ℚ) : PlanR :=
  { type := PlanType.exact, sqlText := sql, originalSQL := sql, table := table,
    sampleTable := "", sampleFraction := 0, sketchType := "", sketchColumn := "",
    estimatedCost := cost, estimatedError := 0, reason := reason }

/-- Embedding of `estimateExactCost` (planner.go:272-283): row count times
the scan cost, plus twice the group estimate (capped at 10000) for GROUP BY. -/
def estimateExactCost (features : PFeatures) (stats : TableStats) : ℚ :=
  (stats.rowCount : ℚ) * 1 +
    (if features.hasGroupBy then min (stats.rowCount : ℚ) 10000 * 2 else 0)

/-- The planner's own `fractionName` (planner.go:422-433): always three
decimals, first dot to underscore, trailing zeros trimmed, `_` re-padded. -/
def fractionNameP (f : ℚ) : String :=
  if f ≤ 0 then "0_000"
  else
    let s1 := Sampler.replaceFirst (Sampler.formatFixed f 3) '.' '_'
    let s2 := Sampler.trimRight0 s1
    ⟨if s2.getLast? = some '_' then s2 ++ ['0'] else s2⟩

/-- Embedding of `evaluateSketchStrategy` (planner.go:286-340). -/
noncomputable def evaluateSketchStrategy (sql table : String) (features : PFeatures)
    (stats : TableStats) (sketchType : String) : Option PlanR :=
  if sketchType = "hyperloglog" ∧ features.hasDistinct then
    let column := if StrOps.containsSub (StrOps.upperChars sql.data)
        ("COUNT(DISTINCT".data) then "id" else ""
    if stats.hasSketches column then
      some { type := PlanType.sketch, sqlText := sql, originalSQL := sql,
             table := table, sampleTable := "", sampleFraction := 0,
             sketchType := sketchType, sketchColumn := column, estimatedCost := 10,
             estimatedError := 1.04 / Real.sqrt 1024,
             reason := "using HyperLogLog sketch for DISTINCT" }
    else none
  else if sketchType = "countmin" ∧ features.isHeavyHitter then
    let column := match features.groupByColumns with
      | c :: _ => c
      | [] => ""
    if stats.hasSketches column then
      some { type := PlanType.sketch, sqlText := sql, originalSQL := sql,
             table := table, sampleTable := "", sampleFraction := 0,
             sketchType := sketchType, sketchColumn := column, estimatedCost := 10,
             estimatedError := 0.01,
             reason := "using Count-Min sketch for heavy hitters" }
    else none
  else none

/-- Embedding of `rewriteSQLForSample` (planner.go:408-419): a plain table
name replacement. -/
def rewriteSQLForSample (sql originalTable sampleTable : String) : String :=
  sql.replace originalTable sampleTable

/-- Embedding of `evaluateSampleStrategy` (planner.go:343-375); the SQLite
existence probe for the sample table is the `sampleTableExists` input. -/
noncomputable def evaluateSampleStrategy (sql table : String) (stats : TableStats)
    (sampleTableExists : Bool) : Option PlanR :=
  if sampleTableExists then
    some { type := PlanType.sample,
           sqlText := rewriteSQLForSample sql table
             (table ++ "__sample_" ++ fractionNameP stats.bestSampleFraction),
           originalSQL := sql, table := table,
           sampleTable := table ++ "__sample_" ++ fractionNameP stats.bestSampleFraction,
           sampleFraction := stats.bestSampleFraction, sketchType := "",
           sketchColumn := "",
           estimatedCost := (stats.rowCount : ℚ) * stats.bestSampleFraction * 1 + 5,
           estimatedError := Real.sqrt (1 / (stats.bestSampleFraction * stats.rowCount : ℝ)),
           reason := "using sample" }
  else none

/-- Embedding of `evaluateStrategies` (planner.go:230-269): the exact plan
first, then the optional sketch plans, then the optional sample plan. -/
noncomputable def evaluateStrategies (sql table : String) (features : PFeatures)
    (stats : TableStats) (sampleTableExists : Bool) : List PlanR :=
  exactPlanOf sql table "exact execution" (estimateExactCost features stats) ::
    ((if features.hasDistinct then
        (evaluateSketchStrategy sql table features stats "hyperloglog").toList
      else []) ++
    (if features.isHeavyHitter then
        (evaluateSketchStrategy sql table features stats "countmin").toList
      else []) ++
    (if stats.bestSampleFraction > 0 then
        (evaluateSampleStrategy sql table stats sampleTableExists).toList
      else []))

open Classical in
/-- Embedding of `chooseBestStrategy` (planner.go:378-405): keep the plans
within the error budget; if none qualifies return the first strategy, else
the cheapest qualifying one. -/
noncomputable def chooseBestStrategy (strategies : List PlanR) (maxRelError : ℝ) : PlanR :=
  if strategies.isEmpty then exactPlanOf "" "" "no strategies available" 0
  else
    match strategies.filter (fun p => decide (p.estimatedError ≤ maxRelError)) with
    | [] => strategies.headD (exactPlanOf "" "" "no strategies available" 0)
    | v :: vs => vs.foldl (fun b s => if s.estimatedCost < b.estimatedCost then s else b) v

theorem foldl_min_cost_prop (P : PlanR → Prop) (l : List PlanR) (acc : PlanR)
    (hacc : P acc) (hl : ∀ x ∈ l, P x) :
    P (l.foldl (fun b s => if s.estimatedCost < b.estimatedCost then s else b) acc) := by
  induction l generalizing acc with
  | nil => exact hacc
  | cons x t ih =>
    simp only [List.foldl_cons]
    apply ih
    · by_cases hx : x.estimatedCost < acc.estimatedCost
      · rw [if_pos hx]
        exact hl x (by simp)
      · rw [if_neg hx]
        exact hacc
    · intro y hy
      exact hl y (by simp [hy])

end Planner

namespace Planner

theorem chooseBest_error_le (s0 : PlanR) (rest : List PlanR) (m : ℝ)
    (h0 : s0.estimatedError ≤ m) :
    (chooseBestStrategy (s0 :: rest) m).estimatedError ≤ m := by
  unfold chooseBestStrategy
  rw [if_neg (by simp)]
  cases hv : (s0 :: rest).filter (fun p => decide (p.estimatedError ≤ m)) with
  | nil =>
    simp only [hv, List.headD_cons]
    exact h0
  | cons v vs =>
    simp only [hv]
    have hmem : ∀ p ∈ v :: vs, p.estimatedError ≤ m := by
      intro p hp
      rw [← hv] at hp
      exact of_decide_eq_true (List.mem_filter.mp hp).2
    exact foldl_min_cost_prop (fun p => p.estimatedError ≤ m) vs v
      (hmem v (by simp)) (fun x hx => hmem x (by simp [hx]))

end Planner

/-- Claim C9: the planner's error budget is respected — the exact plan with
estimated error 0 is always the first evaluated strategy, and for every
nonnegative `maxRelError` the chosen plan's estimated error is within the
budget (the cheapest qualifying plan, falling back to the exact head when
nothing else qualifies). -/
theorem C9_planner_error_budget (sql table : String) (features : Planner.PFeatures)
    (stats : Planner.TableStats) (sampleTableExists : Bool) (m : ℝ) (hm : 0 ≤ m) :
    ((Planner.evaluateStrategies sql table features stats sampleTableExists).head?.map
        (fun p => (p.type, p.estimatedError))) = some (Planner.PlanType.exact, 0) ∧
    (Planner.chooseBestStrategy
        (Planner.evaluateStrategies sql table features stats sampleTableExists)
        m).estimatedError ≤ m := by
  constructor
  · rfl
  · have hL : Planner.evaluateStrategies sql table features stats sampleTableExists =
        Planner.exactPlanOf sql table "exact execution"
            (Planner.estimateExactCost features stats) ::
          ((if features.hasDistinct then
              (Planner.evaluateSketchStrategy sql table features stats
                "hyperloglog").toList
            else []) ++
          (if features.isHeavyHitter then
              (Planner.evaluateSketchStrategy sql table features stats "countmin").toList
            else []) ++
          (if stats.bestSampleFraction > 0 then
              (Planner.evaluateSampleStrategy sql table stats sampleTableExists).toList
            else [])) := rfl
    rw [hL]
    exact Planner.chooseBest_error_le _ _ m (by simpa [Planner.exactPlanOf] using hm)

/-- Witness for C9 at a concrete query: with no sketches and no sample the
only strategy is the exact plan, and the chosen plan's error is within the
budget 1. -/
theorem C9_planner_error_budget_witness :
    ((Planner.evaluateStrategies "SELECT COUNT(*) FROM t" "t"
          ⟨false, false, [], [], false⟩ ⟨500, fun _ => false, 0⟩ false).head?.map
        (fun p => (p.type, p.estimatedError))) = some (Planner.PlanType.exact, 0) ∧
    (Planner.chooseBestStrategy
        (Planner.evaluateStrategies "SELECT COUNT(*) FROM t" "t"
          ⟨false, false, [], [], false⟩ ⟨500, fun _ => false, 0⟩ false)
        1).estimatedError ≤ 1 :=
  C9_planner_error_budget "SELECT COUNT(*) FROM t" "t"
    ⟨false, false, [], [], false⟩ ⟨500, fun _ => false, 0⟩ false 1 (by norm_num)

namespace Planner

/-- RE2's `\s` class, as used in the planner's `from\s+` regex. -/
def goIsSpace (c : Char) : Bool :=
  c = ' ' ∨ c = '\t' ∨ c = '\n' ∨ c = '\x0c' ∨ c = '\r'

/-- The `[a-zA-Z0-9_]` class of the planner's table-name regex. -/
def isWordChar (c : Char) : Bool := c.isAlpha ∨ c.isDigit ∨ c = '_'

/-- Case-insensitive `from` literal test at the head of the input. -/
def lowerEq4From (cs : List Char) : Bool :=
  match cs with
  | c1 :: c2 :: c3 :: c4 :: _ =>
    c1.toLower = 'f' ∧ c2.toLower = 'r' ∧ c3.toLower = 'o' ∧ c4.toLower = 'm'
  | _ => false

/-- Try the regex `(?i)from\s+([a-zA-Z0-9_]+)` at the current position:
the literal, at least one space, then the maximal word-character capture. -/
def matchFromAt (cs : List Char) : Option (List Char) :=
  if lowerEq4From cs then
    if ((cs.drop 4).takeWhile goIsSpace).isEmpty then none
    else
      if (((cs.drop 4).dropWhile goIsSpace).takeWhile isWordChar).isEmpty then none
      else some (((cs.drop 4).dropWhile goIsSpace).takeWhile isWordChar)
  else none

/-- Leftmost match of the table-name regex, as `regexp.FindStringSubmatch`
returns it. -/
def findFrom : List Char → Option (List Char)
  | [] => none
  | c :: t =>
    match matchFromAt (c :: t) with
    | some w => some w
    | none => findFrom t

/-- Embedding of `Planner.extractTableName` (planner.go:140-146). -/
def extractTableName (sql : String) : String :=
  match findFrom sql.data with
  | some w => ⟨w⟩
  | none => ""

/-- Embedding of the pure prefix of `Planner.Plan` (planner.go:75-109): the
empty-table fallback, the sample-name short circuit, and the `preferExact`
branch; everything after the table-stats lookup (which needs the database)
is the `afterStats` continuation. -/
noncomputable def planFn (sqlText : String) (preferExact : Bool)
    (afterStats : String → PlanR) : PlanR :=
  if extractTableName sqlText = "" then
    exactPlanOf sqlText "" "no table found" 0
  else if (parseSampleTableName (extractTableName sqlText)).2.2 then
    { type := PlanType.sample, sqlText := sqlText, originalSQL := sqlText,
      table := (parseSampleTableName (extractTableName sqlText)).1,
      sampleTable := extractTableName sqlText,
      sampleFraction := (parseSampleTableName (extractTableName sqlText)).2.1,
      sketchType := "", sketchColumn := "", estimatedCost := 0, estimatedError := 0,
      reason := "direct query on sample table" }
  else if preferExact then exactPlanOf sqlText (extractTableName sqlText)
    "user prefers exact" 0
  else afterStats (extractTableName sqlText)

end Planner

/-- Claim C10: the sample-name short circuit preempts `prefer_exact` — when
the extracted FROM-table name is recognized as a sample-table name, `Plan`
returns a sample-type plan with the SQL unchanged and the fraction decoded
from the name, for both values of `preferExact`, and regardless of what the
later (stats-dependent) planning would do. -/
theorem C10_sample_name_short_circuit (sql : String) (preferExact : Bool)
    (afterStats : String → Planner.PlanR)
    (hta : ¬ (Planner.extractTableName sql = ""))
    (hsp : (Planner.parseSampleTableName (Planner.extractTableName sql)).2.2 = true) :
    Planner.planFn sql preferExact afterStats =
      { type := Planner.PlanType.sample, sqlText := sql, originalSQL := sql,
        table := (Planner.parseSampleTableName (Planner.extractTableName sql)).1,
        sampleTable := Planner.extractTableName sql,
        sampleFraction :=
          (Planner.parseSampleTableName (Planner.extractTableName sql)).2.1,
        sketchType := "", sketchColumn := "", estimatedCost := 0, estimatedError := 0,
        reason := "direct query on sample table" } := by
  unfold Planner.planFn
  rw [if_neg hta, if_pos (by rw [hsp])]

/-- Witness for C10 at a concrete query on a sample table, with
`preferExact = true` and a continuation that would return a different plan. -/
theorem C10_sample_name_short_circuit_witness :
    Planner.planFn "SELECT * FROM t__sample_0_05" true
        (fun t => Planner.exactPlanOf "other" t "stats path" 0) =
      { type := Planner.PlanType.sample, sqlText := "SELECT * FROM t__sample_0_05",
        originalSQL := "SELECT * FROM t__sample_0_05",
        table := (Planner.parseSampleTableName
          (Planner.extractTableName "SELECT * FROM t__sample_0_05")).1,
        sampleTable := Planner.extractTableName "SELECT * FROM t__sample_0_05",
        sampleFraction := (Planner.parseSampleTableName
          (Planner.extractTableName "SELECT * FROM t__sample_0_05")).2.1,
        sketchType := "", sketchColumn := "", estimatedCost := 0, estimatedError := 0,
        reason := "direct query on sample table" } :=
  C10_sample_name_short_circuit "SELECT * FROM t__sample_0_05" true
    (fun t => Planner.exactPlanOf "other" t "stats path" 0)
    (by decide) (by decide)
